import Mathlib

/-!
Verification of the estragon dotfile manager's core resolution engine.

The development shallowly embeds the Go sources:
* `src/env/environment.go`    — environment-string pattern matching (`Select`,
  `patternFields`, `matchingFields`, `newPattern`, `wildcard`);
* `src/config/config.go`      — layered configuration resolution (`DotConfig`,
  `applyCommonDotConfig`);
* the dotfile resolver        — file-placement resolution (`DeepResolve`,
  `ShallowResolve`, `resolveSubdirRule`, `splitSubdirRule`,
  `expandResolvedPaths`, `expandDotPrefixes`) together with the needed parts
  of Go's `path/filepath` (`Clean`, `Dir`, `Base`, `Join`);
* `src/subcmd/ownership.go`   — the ownership ledger (`EnsureOwnership`,
  `ensureOwnershipDot`, `ensureOwnershipFile`, `DisownDot`).

Go's regular-expression engine is external to the repository; it is abstracted
as a `compile` parameter: `compile f` models
`regexp.Compile("^(?:" + f + ")$")` composed with `MatchString`, returning
`none` when compilation fails and otherwise the full-string-anchored match
predicate.  The single fixed regex `(^| )!($| )` used to split pattern keys,
and `(^|/)dot-` used for dot-prefix expansion, are modeled concretely at the
character level.  Go maps are modeled as association lists (`List.lookup`);
Go's randomized map iteration order becomes list order.  Go `nil` slices are
modeled with `Option`, distinguishing them from empty slices as the source
does.  Filesystem effects of the ownership ledger are modeled by explicit
state passing on `FsState`.
-/

namespace Estragon

/-! ## Environment pattern matching (src/env/environment.go) -/

/-- A compiled-regex abstraction: `none` models a `regexp.Compile` error,
`some p` models the anchored full-string match predicate of the compiled
expression `"^(?:" ++ f ++ ")$"`. -/
abbrev RegexCompiler := String → Option (String → Bool)

/-- Go `unicode.IsSpace` on the characters relevant to `strings.Fields`
(Latin-1 range, as documented for `unicode.IsSpace`). -/
def goIsSpace (c : Char) : Bool :=
  c == ' ' || c == '\t' || c == '\n' || c == '\x0b' || c == '\x0c' ||
  c == '\r' || c == '\x85' || c == '\xa0'

/-- Splitting a character list into maximal runs of non-space characters,
the character-level core of Go `strings.Fields`. -/
def fieldsAux : List Char → List Char → List (List Char)
  | [], acc => if acc.isEmpty then [] else [acc.reverse]
  | c :: rest, acc =>
    if goIsSpace c then
      if acc.isEmpty then fieldsAux rest [] else acc.reverse :: fieldsAux rest []
    else fieldsAux rest (c :: acc)

/-- Go `strings.Fields`. -/
def goFields (s : String) : List String :=
  (fieldsAux s.data []).map (fun cs => ⟨cs⟩)

/-- Matching of the fixed regex `(^| )!($| )` at the current position
(the head of `cs`).  `atStart` tells whether the current position is the
start of the string, where the `^` alternative can fire.  Returns the
number of characters the (preference-first) match consumes. -/
def loneHere (atStart : Bool) : List Char → Option Nat
  | '!' :: rest =>
    if atStart then
      match rest with
      | [] => some 1
      | ' ' :: _ => some 2
      | _ => none
    else none
  | ' ' :: '!' :: rest =>
    match rest with
    | [] => some 2
    | ' ' :: _ => some 3
    | _ => none
  | _ => none

/-- Leftmost match of `(^| )!($| )`: returns the absolute start and end
offsets of the first match, scanning from offset `idx`. -/
def findLone : Bool → Nat → List Char → Option (Nat × Nat)
  | _, _, [] => none
  | atStart, idx, c :: rest =>
    match loneHere atStart (c :: rest) with
    | some n => some (idx, idx + n)
    | none => findLone false (idx + 1) rest

/-- Go `loneExclamation.ReplaceAllLiteralString(s, " ")`, replacing every
non-overlapping match of `(^| )!($| )` by a single space.  The fuel is an
upper bound on the number of matches; every match consumes at least one
character, so the string length suffices. -/
def replaceLoneAll : Nat → Bool → List Char → List Char
  | 0, _, cs => cs
  | fuel + 1, atStart, cs =>
    match findLone atStart 0 cs with
    | some (i, e) => cs.take i ++ ' ' :: replaceLoneAll fuel false (cs.drop e)
    | none => cs

/-- The `pattern` struct of environment.go: required (`good`) and forbidden
(`bad`) regular-expression elements. -/
structure Pattern where
  good : List String
  bad : List String
  deriving Repr, DecidableEq

/-- Go `newPattern`: split the key at the first lone `!` (via
`loneExclamation.Split(s, 2)`), take the fields of the first part as the
required elements, and the fields of the second part — with any further
lone `!` replaced by a space — as the forbidden elements. -/
def newPattern (s : String) : Pattern :=
  match findLone true 0 s.data with
  | some (i, e) =>
    let badPart := (s.data.drop e)
    { good := goFields ⟨s.data.take i⟩
      bad := goFields ⟨replaceLoneAll badPart.length true badPart⟩ }
  | none => { good := goFields s, bad := [] }

/-- Go `pattern.wildcard()`: true when both parts are empty. -/
def Pattern.wildcard (p : Pattern) : Bool :=
  p.good.isEmpty && p.bad.isEmpty

/-- Go `Environment.matchingFields`: for each element in order, compile it
(anchored) and take the first environment field matching it; `none` models
the `nil` return when an element fails to compile or finds no field. -/
def matchingFields (compile : RegexCompiler) (env : List String) :
    List String → Option (List String)
  | [] => some []
  | f :: rest =>
    match compile f with
    | none => none
    | some p =>
      match env.find? (fun e => p e) with
      | none => none
      | some e => (matchingFields compile env rest).map (fun ms => e :: ms)

/-- Go `Environment.patternFields`: the required part must match; the match
is then voided exactly when the forbidden part produces a non-nil, non-empty
match list. -/
def patternFields (compile : RegexCompiler) (env : List String) (p : Pattern) :
    Option (List String) :=
  match matchingFields compile env p.good with
  | none => none
  | some ms =>
    match matchingFields compile env p.bad with
    | some bs => if bs.isEmpty then some ms else none
    | none => some ms

/-- The loop of Go `Environment.Select`, carrying the wildcard fallback key
seen so far.  The second component models the `fields` named return: `none`
is Go's `nil`. -/
def selectGo (compile : RegexCompiler) (env : List String) :
    List String → String → String × Option (List String)
  | [], key => (key, none)
  | k :: rest, key =>
    let p := newPattern k
    if p.wildcard then selectGo compile env rest k
    else
      match patternFields compile env p with
      | some fs => (k, some fs)
      | none => selectGo compile env rest key

/-- Go `Environment.Select`. -/
def Select (compile : RegexCompiler) (env : List String) (keys : List String) :
    String × Option (List String) :=
  selectGo compile env keys ""

/-- A concrete `RegexCompiler` instance used for witnesses and
counterexamples: patterns without regex metacharacters match exactly
themselves, which agrees with Go's engine on such patterns. -/
def litCompile : RegexCompiler := fun s => some (fun e => e == s)

/-- The first environment field, in original environment order, satisfying a
single pattern element — `none` when the element does not compile or no
field satisfies it. -/
def firstSatisfying (compile : RegexCompiler) (env : List String)
    (f : String) : Option String :=
  (compile f).bind (fun p => env.find? (fun e => p e))

/-- Spec-side reading of the required-element scan (spec §4.1): each element
independently takes the first environment field satisfying it, nothing is
removed (fields can be reused by later elements), and any element without a
satisfying field (or failing to compile) fails the whole match. -/
def specMatchingFields (compile : RegexCompiler) (env : List String) :
    List String → Option (List String)
  | [] => some []
  | f :: rest =>
    (firstSatisfying compile env f).bind (fun x =>
      (specMatchingFields compile env rest).map (fun xs => x :: xs))

/-- Spec-side reading of a wildcard key ("an all-whitespace key", spec
glossary). -/
def allWhitespace (s : String) : Bool :=
  s.data.all goIsSpace

/-- The last wildcard key of a key list, if any (spec: "remember the last
wildcard key seen"). -/
def lastWildcard : List String → Option String
  | [] => none
  | k :: rest =>
    match lastWildcard rest with
    | some w => some w
    | none => if (newPattern k).wildcard then some k else none

/-- Spec-side reading of `Select` (spec §4.1), with "wildcard" as the code
defines it (empty required and forbidden parts): the first non-wildcard
matching key wins; otherwise the last wildcard key seen, with nil fields;
otherwise `("", nil)`. -/
def specSelect (compile : RegexCompiler) (env : List String)
    (keys : List String) : String × Option (List String) :=
  match keys.find? (fun k =>
      !(newPattern k).wildcard && (patternFields compile env (newPattern k)).isSome) with
  | some k => (k, patternFields compile env (newPattern k))
  | none =>
    match lastWildcard keys with
    | some k => (k, none)
    | none => ("", none)

/-! ## Layered configuration resolution (src/config/config.go) -/

/-- The `common` struct of config.go: method, root, and the optional
dot-prefix flag (`*bool`, `nil` modeled as `none`). -/
structure Common where
  method : String := ""
  root : String := ""
  dotPrefix : Option Bool := none
  deriving Repr, DecidableEq

/-- The `dot` struct of config.go, restricted to the fields `DotConfig`
reads.  Go maps become association lists. -/
structure Dot where
  common : Common := {}
  environments : List (String × Common) := []
  rules : List (String × List (String × String)) := []
  deploy : List (String × List (List String)) := []
  deriving Repr

/-- The parts of the `schema` struct of config.go that `DotConfig` reads. -/
structure Schema where
  common : Common := {}
  environments : List (String × Common) := []
  dots : List (String × Dot) := []
  deriving Repr

/-- The `DotConfig` struct of config.go. -/
structure DotConfig where
  method : String := ""
  root : String := ""
  dotPrefix : Bool := false
  dotPrefixSet : Bool := false
  rules : List (String × String) := []
  deploy : List (List String) := []
  deriving Repr, DecidableEq

/-- Go `applyCommonDotConfig`: each still-unset field of `d` is filled from
the layer `c`. -/
def applyCommonDotConfig (c : Common) (d : DotConfig) : DotConfig :=
  let d := if d.method = "" then { d with method := c.method } else d
  let d := if d.root = "" then { d with root := c.root } else d
  match c.dotPrefix with
  | some b => if !d.dotPrefixSet then { d with dotPrefix := b, dotPrefixSet := true } else d
  | none => d

/-- An abstract environment selector, modeling `c.selector.Select` over the
keys of a map (spec: the selector is the pattern matcher applied to the
runtime environment). -/
abbrev Selector := List String → String × List String

/-- An abstract template expander, modeling
`env.NewMatch(key, fields).Replace(s)`. -/
abbrev Replacer := String → List String → String → String

/-- The first phase of Go `Config.DotConfig`: rules and deploy commands are
each selected once from the dot's own environment-keyed maps, with the rule
keys templated through the captured fields of the rules selection. -/
def rulesDeployConfig (select : Selector) (replace : Replacer) (dot : Dot) :
    DotConfig :=
  let d : DotConfig := {}
  let kf := select (dot.rules.map Prod.fst)
  let d := match dot.rules.lookup kf.1 with
    | some envRules =>
      { d with rules := envRules.map (fun kv => (replace kf.1 kf.2 kv.1, kv.2)) }
    | none => d
  match dot.deploy.lookup (select (dot.deploy.map Prod.fst)).1 with
  | some envDeploy => { d with deploy := envDeploy }
  | none => d

/-- One environment-keyed common layer of Go `Config.DotConfig`: applied
only when the selected key is bound in the map. -/
def applyEnvCommon (select : Selector) (envs : List (String × Common))
    (d : DotConfig) : DotConfig :=
  match envs.lookup (select (envs.map Prod.fst)).1 with
  | some cc => applyCommonDotConfig cc d
  | none => d

/-- Go `Config.DotConfig`: rules and deploy commands are selected once from
the dot's own environment-keyed maps; the common settings are then layered,
most specific first, each layer only filling still-unset fields; a never-set
dot-prefix flag defaults to true. -/
def DotConfigOf (select : Selector) (replace : Replacer) (sch : Schema)
    (dotName : String) : DotConfig :=
  let dot := (sch.dots.lookup dotName).getD {}
  let d := rulesDeployConfig select replace dot
  let d := applyEnvCommon select dot.environments d
  let d := applyCommonDotConfig dot.common d
  let d := applyEnvCommon select sch.environments d
  let d := applyCommonDotConfig sch.common d
  if !d.dotPrefixSet then { d with dotPrefix := true } else d

/-- The environment-matched common layer contributed by an
environment-keyed map: present exactly when the selected key is bound. -/
def envCommonLayer (select : Selector) (envs : List (String × Common)) :
    List Common :=
  match envs.lookup (select (envs.map Prod.fst)).1 with
  | some cc => [cc]
  | none => []

/-- The fixed layer order of spec §4.3: bundle environment-matched settings,
bundle bare settings, global environment-matched settings, global bare
settings. -/
def commonLayers (select : Selector) (sch : Schema) (dotName : String) :
    List Common :=
  let dot := (sch.dots.lookup dotName).getD {}
  envCommonLayer select dot.environments ++ [dot.common] ++
    envCommonLayer select sch.environments ++ [sch.common]

/-- First-writer-wins for a string field: the first non-empty value in layer
order, or `""` if none. -/
def firstSetStr : List String → String
  | [] => ""
  | s :: rest => if s = "" then firstSetStr rest else s

/-- First-writer-wins for the dot-prefix flag: the first explicitly set
value in layer order, defaulting to `true`. -/
def firstSetBool : List (Option Bool) → Bool
  | [] => true
  | none :: rest => firstSetBool rest
  | some b :: _ => b

/-- Folding the common layers over a configuration, most specific first. -/
def applyLayers (layers : List Common) (d : DotConfig) : DotConfig :=
  layers.foldl (fun d c => applyCommonDotConfig c d) d

/-! ## Go `path/filepath` on slash-separated paths

`filepath.Clean` is modeled by its specification: split on `/`, drop empty
and `.` segments, resolve `..` against a stack (kept at the front, so the
stack head is the most recent segment), and reassemble. -/

/-- Splitting a character list at every `/` (Go `strings.Split(s, "/")`):
the pieces themselves contain no slash and may be empty. -/
def splitSlash : List Char → List (List Char)
  | [] => [[]]
  | c :: rest =>
    if c = '/' then [] :: splitSlash rest
    else
      match splitSlash rest with
      | s :: ss => (c :: s) :: ss
      | [] => [[c]]

/-- One step of the `Clean` segment processing.  `out` is the processed
stack with its head the most recently kept segment. -/
def cleanStep (rooted : Bool) (out : List (List Char)) (seg : List Char) :
    List (List Char) :=
  if seg = [] ∨ seg = ['.'] then out
  else if seg = ['.', '.'] then
    match out with
    | top :: rest => if top = ['.', '.'] then seg :: out else rest
    | [] => if rooted then [] else [seg]
  else seg :: out

/-- Joining segments with `/` separators. -/
def joinSegs : List (List Char) → List Char
  | [] => []
  | [s] => s
  | s :: ss => s ++ '/' :: joinSegs ss

/-- Go `filepath.Clean` (character-list level, unix separator). -/
def cleanData (cs : List Char) : List Char :=
  let rooted := cs.head? = some '/'
  let segs := ((splitSlash cs).foldl (cleanStep rooted) []).reverse
  let r := joinSegs segs
  let r := if rooted then '/' :: r else r
  if r = [] then ['.'] else r

/-- The characters of `cs` up to and including the last `/` (empty when
there is no slash), i.e. Go's `path[:i+1]` for `i` the last separator. -/
def uptoLastSlash (cs : List Char) : List Char :=
  ((cs.reverse.dropWhile (fun c => c ≠ '/')).reverse)

/-- The characters of `cs` strictly after the last `/` (all of `cs` when
there is no slash). -/
def afterLastSlash (cs : List Char) : List Char :=
  ((cs.reverse.takeWhile (fun c => c ≠ '/')).reverse)

/-- Go `filepath.Dir` (character-list level): everything up to the last
separator, cleaned; `.` when there is no separator. -/
def dirData (cs : List Char) : List Char :=
  cleanData (uptoLastSlash cs)

/-- Go `filepath.Base` (character-list level). -/
def baseData (cs : List Char) : List Char :=
  if cs = [] then ['.']
  else
    let cs := (cs.reverse.dropWhile (fun c => c = '/')).reverse
    if cs = [] then ['/']
    else afterLastSlash cs

/-- Go `filepath.Dir`. -/
def goDir (s : String) : String := ⟨dirData s.data⟩

/-- Go `filepath.Base`. -/
def goBase (s : String) : String := ⟨baseData s.data⟩

/-- Go `filepath.Clean`. -/
def goClean (s : String) : String := ⟨cleanData s.data⟩

/-- Go `filepath.Join(a, b)`: empty leading elements are skipped, the rest
are joined with `/` and cleaned; all-empty input yields the empty string. -/
def goJoin2 (a b : String) : String :=
  if a = "" then (if b = "" then "" else goClean b)
  else goClean ⟨a.data ++ '/' :: b.data⟩

/-- The replacement `(^|/)dot- ↦ $1.` of `expandDotPrefixes`, scanned left
to right over non-overlapping matches.  The flag records whether the current
position is the string start or just after a slash (where `(^|/)` can
match). -/
def expandDotAux : List Char → Bool → List Char
  | 'd' :: 'o' :: 't' :: '-' :: rest, true => '.' :: expandDotAux rest false
  | c :: rest, _ => c :: expandDotAux rest (c == '/')
  | [], _ => []

/-- Go `expandDotPrefixes`: replace the `dot-` marker of every path segment
that starts with it by a lone dot. -/
def expandDotPrefixes (s : String) : String :=
  ⟨expandDotAux s.data true⟩

/-! ## File-placement resolution (the dotfile resolver) -/

/-- An association-list map with Go-map insertion semantics: inserting a key
replaces any previous binding. -/
def insertAL (m : List (String × String)) (k v : String) :
    List (String × String) :=
  m.filter (fun kv => kv.1 ≠ k) ++ [(k, v)]

/-- The `Resolver` struct of the dotfile resolver.  The `expand` field is
the externally supplied `PathExpander`; `Except` models its
`(string, error)` result. -/
structure Resolver where
  dotRoot : String
  outRoot : String
  dotPrefix : Bool
  expand : String → Except String String

/-- The loop body of Go `splitSubdirRule`, walking `dir` upward until a rule
key is found or the root is reached.  The Go loop has no fuel (and diverges
on rooted paths whose walk never reaches `.`); the fuel is an upper bound on
the number of iterations, sufficient for relative paths since `Dir` shortens
the string each step. -/
def splitSubdirGo (rules : List (String × String)) :
    Nat → String → String → Bool → String × String × Bool
  | fuel, dir, subpath, ok =>
    if ok then (dir, subpath, true)
    else if goDir dir = "." then (dir, subpath, false)
    else
      match fuel with
      | 0 => (dir, subpath, false)
      | fuel + 1 =>
        let subpath := goJoin2 (goBase dir) subpath
        let dir := goDir dir
        splitSubdirGo rules fuel dir subpath (rules.lookup dir).isSome

/-- Go `splitSubdirRule`: split the file path into the deepest ancestor
directory bound in the rules and the remainder below it. -/
def splitSubdirRule (file : String) (rules : List (String × String)) :
    String × String × Bool :=
  let dir := goDir file
  splitSubdirGo rules file.length dir (goBase file) (rules.lookup dir).isSome

/-- Go `resolveSubdirRule`: resolve a file against the rule of its deepest
ruled ancestor directory; an empty rule value marks the path ignored;
dot-prefix expansion applies to the remainder only. -/
def resolveSubdirRule (file : String) (rules : List (String × String))
    (dotPrefix : Bool) : String × Bool :=
  let (outDir, subpath, ok) := splitSubdirRule file rules
  if ok then
    let outDir := (rules.lookup outDir).getD ""
    if outDir = "" then ("", true)
    else
      let subpath := if dotPrefix then expandDotPrefixes subpath else subpath
      (goJoin2 outDir subpath, true)
  else ("", false)

/-- The per-file rule resolution of `DeepResolve`'s loop: the full path as
an exact rule key first, then the subdirectory walk. -/
def deepFileRule (rules : List (String × String)) (dotPrefix : Bool)
    (file : String) : String × Bool :=
  match rules.lookup file with
  | some v => (v, true)
  | none => resolveSubdirRule file rules dotPrefix

/-- The `fileMap` built by Go `DeepResolve` before path expansion: ruled
files keep their non-empty destination, unruled files map to `""` (the
root-fallback marker) unless an empty-string rule key exists. -/
def deepStep (rules : List (String × String)) (dotPrefix ignoreRuleless : Bool)
    (fm : List (String × String)) (file : String) : List (String × String) :=
  let r := deepFileRule rules dotPrefix file
  if r.2 then (if r.1 ≠ "" then insertAL fm file r.1 else fm)
  else if !ignoreRuleless then insertAL fm file "" else fm

def deepFileMap (rules : List (String × String)) (dotPrefix : Bool)
    (files : List String) : List (String × String) :=
  let ignoreRuleless := (rules.lookup "").isSome
  files.foldl (deepStep rules dotPrefix ignoreRuleless) []

/-- The expansion of one `fileMap` entry inside Go `expandResolvedPaths`:
an empty destination defaults to the output root joined with the (possibly
dot-expanded) relative path, the source is rooted at `dotRoot`, and both
sides run through the external path expander. -/
def expandEntry (r : Resolver) (file outFile : String) :
    Except String (String × String) :=
  let outFile :=
    if outFile = "" then
      goJoin2 r.outRoot (if r.dotPrefix then expandDotPrefixes file else file)
    else outFile
  let file := goJoin2 r.dotRoot file
  match r.expand file with
  | .error e => .error e
  | .ok f =>
    match r.expand outFile with
    | .error e => .error e
    | .ok o => .ok (f, o)

/-- The loop of Go `expandResolvedPaths`: any expansion error aborts with
that error (and no map); otherwise the expanded entries are inserted into
the result map. -/
def expandResolvedPaths (r : Resolver) :
    List (String × String) → List (String × String) →
    Except String (List (String × String))
  | [], acc => .ok acc
  | (k, v) :: rest, acc =>
    match expandEntry r k v with
    | .error e => .error e
    | .ok (f, o) => expandResolvedPaths r rest (insertAL acc f o)

/-- Go `Resolver.DeepResolve`. -/
def DeepResolve (r : Resolver) (files : List String)
    (rules : List (String × String)) :
    Except String (List (String × String)) :=
  expandResolvedPaths r (deepFileMap rules r.dotPrefix files) []

/-- The `fileMap` built by Go `ShallowResolve` before path expansion:
exact rule hits keep the file as key; otherwise a successful subdirectory
split replaces the file by the matched directory key; only non-empty rule
values are kept. -/
def shallowStep (rules : List (String × String))
    (fm : List (String × String)) (file : String) : List (String × String) :=
  match rules.lookup file with
  | some v => if v ≠ "" then insertAL fm file v else fm
  | none =>
    let s := splitSubdirRule file rules
    let v := (rules.lookup s.1).getD ""
    if s.2.2 && v ≠ "" then insertAL fm s.1 v else fm

def shallowFileMap (rules : List (String × String)) (files : List String) :
    List (String × String) :=
  files.foldl (shallowStep rules) []

/-- Go `Resolver.ShallowResolve`: dot expansion is disabled up front, and an
empty map is replaced by the single synthetic root entry `{"": ""}`. -/
def ShallowResolve (r : Resolver) (files : List String)
    (rules : List (String × String)) :
    Except String (List (String × String)) :=
  let r := { r with dotPrefix := false }
  let fm := shallowFileMap rules files
  let fm := if fm.isEmpty then [("", "")] else fm
  expandResolvedPaths r fm []

/-- The always-succeeding path expander (identity expansion), used to state
placement claims independent of the external expander. -/
def pureExpand : String → Except String String := fun s => .ok s

/-- A segment of a canonical relative path: non-empty, slash-free, and not
one of the special segments `.` and `..` (on such paths the Go `filepath`
functions act purely structurally). -/
def isSeg (s : List Char) : Bool :=
  !s.isEmpty && s.all (fun c => c ≠ '/') && s ≠ ['.'] && s ≠ ['.', '.']

/-- The string of a canonical relative path given by its segments. -/
def pathOfSegs (ss : List (List Char)) : String := ⟨joinSegs ss⟩

/-! ## Ownership ledger (src/subcmd/ownership.go)

The filesystem and the persisted ledger file are modeled by explicit state:
`disk` is the set of existing destination paths, `ledger` the parsed content
of the ownership JSON (bundle name to owned paths).  `os.RemoveAll` becomes
removal of the path from `disk`; a returned `Except.error` models the Go
error return before the ledger is written back, so the ledger of the input
state is the persisted one in that case. -/

/-- The modeled world state of the ownership manager. -/
structure FsState where
  disk : List String
  ledger : List (String × List String)
  deriving Repr, DecidableEq

/-- Go `ensureOwnershipFile`: a non-existing path is fine; an existing path
is removed when owned or forced, and otherwise reported as existing but
unowned.  Returns the updated disk. -/
def ensureOwnershipFile (force : Bool) (disk : List String) (file : String)
    (owned : Bool) : Except String (List String) :=
  if file ∈ disk then
    if owned || force then .ok (disk.filter (fun p => p ≠ file))
    else .error (file ++ " exists but is not owned by this directory")
  else .ok disk

/-- The loop of Go `ensureOwnershipDot`: `ownedSet` is the set built once
from the incoming owned files (later appends do not join it, as in the Go
code); files not in it are appended to the owned list. -/
def ensureOwnershipGo (force : Bool) (ownedSet : List String) :
    List String → List String → List String →
    Except String (List String × List String)
  | [], ownedFiles, disk => .ok (ownedFiles, disk)
  | file :: rest, ownedFiles, disk =>
    let owned := ownedSet.contains file
    match ensureOwnershipFile force disk file owned with
    | .error e => .error e
    | .ok disk =>
      let ownedFiles := if owned then ownedFiles else ownedFiles ++ [file]
      ensureOwnershipGo force ownedSet rest ownedFiles disk

/-- Go `ensureOwnershipDot`, returning the new owned list and the updated
disk. -/
def ensureOwnershipDot (force : Bool) (disk : List String)
    (files ownedFiles : List String) :
    Except String (List String × List String) :=
  ensureOwnershipGo force ownedFiles files ownedFiles disk

/-- Replacing the binding of `dot` in the ledger (Go `dotOwn[dot] = ...`),
leaving every other binding in place. -/
def insertLedger (ledger : List (String × List String)) (dot : String)
    (files : List String) : List (String × List String) :=
  if (ledger.lookup dot).isSome then
    ledger.map (fun kv => if kv.1 = dot then (dot, files) else kv)
  else ledger ++ [(dot, files)]

/-- Go `OwnershipManager.EnsureOwnership`: read the ledger entry of the
bundle (`nil`, i.e. `[]`, when absent), run `ensureOwnershipDot`, and on
success persist the ledger with the bundle's entry replaced. -/
def EnsureOwnership (force : Bool) (st : FsState) (files : List String)
    (dot : String) : Except String FsState :=
  let owned := (st.ledger.lookup dot).getD []
  match ensureOwnershipDot force st.disk files owned with
  | .error e => .error e
  | .ok (owned', disk') => .ok ⟨disk', insertLedger st.ledger dot owned'⟩

/-- Go `OwnershipManager.DisownDot`: delete the bundle's ledger entry and
persist. -/
def DisownDot (st : FsState) (dot : String) : FsState :=
  ⟨st.disk, st.ledger.filter (fun kv => kv.1 ≠ dot)⟩

/-! ## Lemmas about the pattern matcher -/

theorem matchingFields_length (compile : RegexCompiler) (env : List String) :
    ∀ fields ms, matchingFields compile env fields = some ms →
      ms.length = fields.length := by
  intro fields
  induction fields with
  | nil => intro ms h; simp [matchingFields] at h; simp [← h]
  | cons f rest ih =>
    intro ms h
    cases hc : compile f with
    | none => simp [matchingFields, hc] at h
    | some p =>
      simp only [matchingFields, hc] at h
      cases hf : env.find? (fun e => p e) with
      | none => simp [hf] at h
      | some e =>
        simp only [hf] at h
        cases hr : matchingFields compile env rest with
        | none => simp [hr] at h
        | some ms' =>
          simp only [hr, Option.map_some', Option.some.injEq] at h
          subst h
          simp [ih ms' hr]

/-- C3 auxiliary: the source loop equals the spec-side independent per-element
scan. -/
theorem matchingFields_eq_spec (compile : RegexCompiler) (env : List String) :
    ∀ fields, matchingFields compile env fields =
      specMatchingFields compile env fields := by
  intro fields
  induction fields with
  | nil => rfl
  | cons f rest ih =>
    cases hc : compile f with
    | none => simp [matchingFields, specMatchingFields, firstSatisfying, hc]
    | some p =>
      cases hf : env.find? (fun e => p e) with
      | none => simp [matchingFields, specMatchingFields, firstSatisfying, hc, hf]
      | some e =>
        simp only [matchingFields, specMatchingFields, firstSatisfying, hc, hf,
          Option.some_bind]
        rw [← ih]

theorem patternFields_bad_none (compile : RegexCompiler) (env : List String)
    (p : Pattern) (hbad : p.bad ≠ [])
    (hmatch : matchingFields compile env p.bad ≠ none) :
    patternFields compile env p = none := by
  obtain ⟨bs, hbs⟩ := Option.ne_none_iff_exists'.mp hmatch
  have hlen := matchingFields_length compile env p.bad bs hbs
  have hbs' : bs.isEmpty = false := by
    cases bs with
    | nil => cases hbad (List.length_eq_zero.mp hlen.symm)
    | cons b l => rfl
  cases hg : matchingFields compile env p.good with
  | none => simp [patternFields, hg]
  | some ms => simp [patternFields, hg, hbs, hbs']

theorem wildcard_bad_empty (k : String) (h : (newPattern k).wildcard = true) :
    (newPattern k).bad = [] := by
  unfold Pattern.wildcard at h
  have := (Bool.and_eq_true _ _).mp h
  exact List.isEmpty_iff.mp this.2

theorem selectGo_ne_of_patternFields_none (compile : RegexCompiler)
    (env : List String) (key : String)
    (hbad : (newPattern key).bad ≠ [])
    (hnone : patternFields compile env (newPattern key) = none) :
    ∀ keys acc, acc ≠ key → (selectGo compile env keys acc).1 ≠ key := by
  intro keys
  induction keys with
  | nil => intro acc hacc; simpa [selectGo] using hacc
  | cons k rest ih =>
    intro acc hacc
    simp only [selectGo]
    by_cases hw : (newPattern k).wildcard = true
    · rw [hw]
      simp only [if_true]
      refine ih k ?_
      intro hk; subst hk
      exact hbad (wildcard_bad_empty k hw)
    · rw [Bool.not_eq_true] at hw
      rw [hw]
      simp only [Bool.false_eq_true, if_false]
      cases hp : patternFields compile env (newPattern k) with
      | none => exact ih acc hacc
      | some fs =>
        intro hk
        simp only at hk
        subst hk
        rw [hnone] at hp
        cases hp

/-! ## Theorems for the claims about the pattern matcher -/

/-- C1 (counterexample): with key `"a ! x y"` (required `["a"]`, forbidden
`["x", "y"]`) and environment `["a", "x"]`, the environment field `"x"`
satisfies the forbidden element `"x"` and the required part matches, yet
`patternFields` returns a non-nil match and `Select` returns the key: the
match is not voided, contradicting "if any environment field satisfies any
one of the forbidden pattern elements, then the match is voided". -/
theorem claim1_counterexample :
    (newPattern "a ! x y").bad = ["x", "y"] ∧
    matchingFields litCompile ["a", "x"] ["x"] = some ["x"] ∧
    patternFields litCompile ["a", "x"] (newPattern "a ! x y") = some ["a"] ∧
    Select litCompile ["a", "x"] ["a ! x y"] = ("a ! x y", some ["a"]) := by
  refine ⟨by decide, by decide, by decide, by decide⟩

/-- C1 (amended): a match against a pattern with a non-empty forbidden part
is voided exactly when *every* forbidden element finds a satisfying
environment field (the forbidden scan uses the same all-elements loop as the
required scan); in that case `patternFields` returns nil regardless of the
required part, and `Select` never yields that key. -/
theorem claim1_forbidden_voids_all (compile : RegexCompiler)
    (env : List String) (key : String)
    (hbad : (newPattern key).bad ≠ [])
    (hmatch : matchingFields compile env (newPattern key).bad ≠ none) :
    patternFields compile env (newPattern key) = none ∧
    ∀ keys, (Select compile env keys).1 ≠ key := by
  have hnone := patternFields_bad_none compile env (newPattern key) hbad hmatch
  refine ⟨hnone, fun keys => ?_⟩
  refine selectGo_ne_of_patternFields_none compile env key hbad hnone keys "" ?_
  intro h
  rw [← h] at hbad
  exact hbad (by decide)

/-- C1 (witness for the amended theorem): concrete instance of
`claim1_forbidden_voids_all` at key `"a ! x y"`, environment
`["a", "x", "y"]`. -/
theorem claim1_forbidden_voids_all_witness :
    ((newPattern "a ! x y").bad ≠ [] ∧
      matchingFields litCompile ["a", "x", "y"] (newPattern "a ! x y").bad ≠ none) ∧
    patternFields litCompile ["a", "x", "y"] (newPattern "a ! x y") = none ∧
    (Select litCompile ["a", "x", "y"] ["a ! x y", "b"]).1 ≠ "a ! x y" := by
  have h := claim1_forbidden_voids_all litCompile ["a", "x", "y"] "a ! x y"
    (by decide) (by decide)
  exact ⟨⟨by decide, by decide⟩, h.1, h.2 ["a ! x y", "b"]⟩

/-- C2 (counterexample): the key `"!"` is not all-whitespace and its pattern
matches every environment (empty required part), so by the claim `Select`
on `["!", "x"]` should return `"!"` as the first matching non-wildcard key;
the code instead treats `"!"` as a wildcard fallback and returns `"x"`. -/
theorem claim2_counterexample :
    allWhitespace "!" = false ∧
    patternFields litCompile ["x"] (newPattern "!") = some [] ∧
    Select litCompile ["x"] ["!", "x"] = ("x", some ["x"]) := by
  refine ⟨by decide, by decide, by decide⟩

/-- C2 (amended): with "wildcard" meaning a key whose pattern has empty
required and forbidden parts (all-whitespace keys, but also degenerate keys
such as a lone `"!"`), `Select` returns the first non-wildcard key whose
pattern matches, with its captured fields; otherwise the last wildcard key
seen, with nil fields; otherwise `("", nil)`. -/
theorem claim2_select_spec (compile : RegexCompiler) (env : List String)
    (keys : List String) :
    Select compile env keys = specSelect compile env keys := by
  suffices h : ∀ ks acc, selectGo compile env ks acc =
      match ks.find? (fun k =>
        !(newPattern k).wildcard &&
          (patternFields compile env (newPattern k)).isSome) with
      | some k => (k, patternFields compile env (newPattern k))
      | none =>
        match lastWildcard ks with
        | some k => (k, none)
        | none => (acc, none) by
    unfold Select specSelect
    rw [h keys ""]
  intro ks
  induction ks with
  | nil => intro acc; rfl
  | cons k rest ih =>
    intro acc
    simp only [selectGo, List.find?, lastWildcard]
    by_cases hw : (newPattern k).wildcard = true
    · rw [hw]
      simp only [Bool.not_true, Bool.false_and, if_true]
      rw [ih k]
      cases rest.find? (fun k =>
          !(newPattern k).wildcard &&
            (patternFields compile env (newPattern k)).isSome) with
      | some k' => rfl
      | none =>
        cases lastWildcard rest with
        | some w => rfl
        | none => simp [hw]
    · rw [Bool.not_eq_true] at hw
      rw [hw]
      simp only [Bool.not_false, Bool.true_and, Bool.false_eq_true, if_false]
      cases hp : patternFields compile env (newPattern k) with
      | none =>
        simp only [Option.isSome_none]
        rw [ih acc]
        cases rest.find? (fun k =>
            !(newPattern k).wildcard &&
              (patternFields compile env (newPattern k)).isSome) with
        | some k' => rfl
        | none =>
          cases lastWildcard rest with
          | some w => rfl
          | none => simp [hw]
      | some fs =>
        simp only [Option.isSome_some]
        rw [hp]

/-- C3: the required-part scan captures, for each element in order, the
first environment field (in original order) satisfying that element's
compiled anchored expression; fields are reused across elements (no
removal); an element with no satisfying field, or one that fails to compile
(a malformed regular expression), makes the whole scan return nil — the
match simply fails, no failure escapes.  Stated as equality with the
spec-side independent per-element scan `specMatchingFields`. -/
theorem claim3_required_scan (compile : RegexCompiler) (env : List String)
    (fields : List String) :
    matchingFields compile env fields = specMatchingFields compile env fields :=
  matchingFields_eq_spec compile env fields

/-! ## Lemmas about layered configuration resolution -/

theorem applyCommonDotConfig_eq (c : Common) (d : DotConfig) :
    applyCommonDotConfig c d =
      { method := if d.method = "" then c.method else d.method
        root := if d.root = "" then c.root else d.root
        dotPrefix := if d.dotPrefixSet then d.dotPrefix
          else c.dotPrefix.getD d.dotPrefix
        dotPrefixSet := d.dotPrefixSet || c.dotPrefix.isSome
        rules := d.rules
        deploy := d.deploy } := by
  obtain ⟨dm, dr, dp, ds, dru, dde⟩ := d
  unfold applyCommonDotConfig
  cases hdp : c.dotPrefix <;>
    by_cases hm : dm = "" <;>
      by_cases hr : dr = "" <;>
        cases ds <;>
          simp [hm, hr]

theorem applyCommonDotConfig_method (c : Common) (d : DotConfig) :
    (applyCommonDotConfig c d).method =
      (if d.method = "" then c.method else d.method) := by
  rw [applyCommonDotConfig_eq]

theorem applyCommonDotConfig_root (c : Common) (d : DotConfig) :
    (applyCommonDotConfig c d).root =
      (if d.root = "" then c.root else d.root) := by
  rw [applyCommonDotConfig_eq]

theorem applyCommonDotConfig_dotPrefix (c : Common) (d : DotConfig) :
    (applyCommonDotConfig c d).dotPrefix =
      (if d.dotPrefixSet then d.dotPrefix else (c.dotPrefix.getD d.dotPrefix)) ∧
    (applyCommonDotConfig c d).dotPrefixSet =
      (d.dotPrefixSet || c.dotPrefix.isSome) := by
  rw [applyCommonDotConfig_eq]
  exact ⟨rfl, rfl⟩

theorem applyLayers_nil (d : DotConfig) : applyLayers [] d = d := rfl

theorem applyLayers_cons (c : Common) (L : List Common) (d : DotConfig) :
    applyLayers (c :: L) d = applyLayers L (applyCommonDotConfig c d) := rfl

theorem applyLayers_method_keep (L : List Common) :
    ∀ d : DotConfig, d.method ≠ "" → (applyLayers L d).method = d.method := by
  induction L with
  | nil => intro d _; rfl
  | cons c rest ih =>
    intro d hd
    rw [applyLayers_cons]
    have hstep : (applyCommonDotConfig c d).method = d.method := by
      rw [applyCommonDotConfig_method, if_neg hd]
    rw [ih _ (by rw [hstep]; exact hd), hstep]

theorem applyLayers_root_keep (L : List Common) :
    ∀ d : DotConfig, d.root ≠ "" → (applyLayers L d).root = d.root := by
  induction L with
  | nil => intro d _; rfl
  | cons c rest ih =>
    intro d hd
    rw [applyLayers_cons]
    have hstep : (applyCommonDotConfig c d).root = d.root := by
      rw [applyCommonDotConfig_root, if_neg hd]
    rw [ih _ (by rw [hstep]; exact hd), hstep]

theorem applyLayers_dotPrefix_keep (L : List Common) :
    ∀ d : DotConfig, d.dotPrefixSet = true →
      (applyLayers L d).dotPrefixSet = true ∧
      (applyLayers L d).dotPrefix = d.dotPrefix := by
  induction L with
  | nil => intro d hd; exact ⟨hd, rfl⟩
  | cons c rest ih =>
    intro d hd
    obtain ⟨hv, hs⟩ := applyCommonDotConfig_dotPrefix c d
    have hs' : (applyCommonDotConfig c d).dotPrefixSet = true := by
      rw [hs, hd]; rfl
    have hv' : (applyCommonDotConfig c d).dotPrefix = d.dotPrefix := by
      rw [hv, hd]
      simp
    rw [applyLayers_cons]
    obtain ⟨ha, hb⟩ := ih _ hs'
    exact ⟨ha, by rw [hb, hv']⟩

theorem applyLayers_method_of_empty (layers : List Common) :
    ∀ d : DotConfig, d.method = "" →
      (applyLayers layers d).method = firstSetStr (layers.map (fun c => c.method)) := by
  induction layers with
  | nil => intro d hd; simpa [applyLayers, firstSetStr] using hd
  | cons c rest ih =>
    intro d hd
    rw [applyLayers_cons]
    have hstep : (applyCommonDotConfig c d).method = c.method := by
      rw [applyCommonDotConfig_method, if_pos hd]
    by_cases hc : c.method = ""
    · simp only [List.map_cons, firstSetStr, hc, if_pos rfl]
      exact ih _ (by rw [hstep, hc])
    · simp only [List.map_cons, firstSetStr, if_neg hc]
      rw [applyLayers_method_keep rest _ (by rw [hstep]; exact hc), hstep]

theorem applyLayers_root_of_empty (layers : List Common) :
    ∀ d : DotConfig, d.root = "" →
      (applyLayers layers d).root = firstSetStr (layers.map (fun c => c.root)) := by
  induction layers with
  | nil => intro d hd; simpa [applyLayers, firstSetStr] using hd
  | cons c rest ih =>
    intro d hd
    rw [applyLayers_cons]
    have hstep : (applyCommonDotConfig c d).root = c.root := by
      rw [applyCommonDotConfig_root, if_pos hd]
    by_cases hc : c.root = ""
    · simp only [List.map_cons, firstSetStr, hc, if_pos rfl]
      exact ih _ (by rw [hstep, hc])
    · simp only [List.map_cons, firstSetStr, if_neg hc]
      rw [applyLayers_root_keep rest _ (by rw [hstep]; exact hc), hstep]

theorem applyLayers_dotPrefix_of_unset (layers : List Common) :
    ∀ d : DotConfig, d.dotPrefixSet = false →
      (if (applyLayers layers d).dotPrefixSet then (applyLayers layers d).dotPrefix
        else true) =
      firstSetBool (layers.map (fun c => c.dotPrefix)) := by
  induction layers with
  | nil => intro d hd; simp [applyLayers, firstSetBool, hd]
  | cons c rest ih =>
    intro d hd
    obtain ⟨hval, hset⟩ := applyCommonDotConfig_dotPrefix c d
    rw [applyLayers_cons]
    cases hc : c.dotPrefix with
    | none =>
      have hset' : (applyCommonDotConfig c d).dotPrefixSet = false := by
        rw [hset, hd, hc]; rfl
      simp only [List.map_cons, firstSetBool, hc]
      exact ih _ hset'
    | some b =>
      have hset' : (applyCommonDotConfig c d).dotPrefixSet = true := by
        rw [hset, hd, hc]; rfl
      have hval' : (applyCommonDotConfig c d).dotPrefix = b := by
        rw [hval, hd, hc]; simp
      obtain ⟨ha, hb⟩ := applyLayers_dotPrefix_keep rest _ hset'
      simp only [List.map_cons, firstSetBool, hc]
      rw [ha, if_pos rfl, hb, hval']

theorem applyCommonDotConfig_frame (c : Common) (d : DotConfig) :
    (applyCommonDotConfig c d).rules = d.rules ∧
    (applyCommonDotConfig c d).deploy = d.deploy := by
  rw [applyCommonDotConfig_eq]
  exact ⟨rfl, rfl⟩

theorem rulesDeployConfig_unset (select : Selector) (replace : Replacer)
    (dot : Dot) :
    (rulesDeployConfig select replace dot).method = "" ∧
    (rulesDeployConfig select replace dot).root = "" ∧
    (rulesDeployConfig select replace dot).dotPrefixSet = false := by
  unfold rulesDeployConfig
  dsimp only
  cases List.lookup (select (List.map Prod.fst dot.rules)).1 dot.rules <;>
    cases List.lookup (select (List.map Prod.fst dot.deploy)).1 dot.deploy <;>
      exact ⟨rfl, rfl, rfl⟩

theorem applyEnvCommon_eq_applyLayers (select : Selector)
    (envs : List (String × Common)) (d : DotConfig) :
    applyEnvCommon select envs d = applyLayers (envCommonLayer select envs) d := by
  unfold applyEnvCommon envCommonLayer
  cases envs.lookup (select (envs.map Prod.fst)).1 <;> rfl

theorem applyLayers_append (A B : List Common) (d : DotConfig) :
    applyLayers (A ++ B) d = applyLayers B (applyLayers A d) :=
  List.foldl_append _ _ _ _

/-- The whole common-settings phase of `DotConfigOf` is the fold of the
fixed layer list over the rules/deploy phase's output. -/
theorem DotConfigOf_eq_layers (select : Selector) (replace : Replacer)
    (sch : Schema) (dotName : String) :
    DotConfigOf select replace sch dotName =
      (let d := applyLayers (commonLayers select sch dotName)
        (rulesDeployConfig select replace
          ((sch.dots.lookup dotName).getD {}));
      if !d.dotPrefixSet then { d with dotPrefix := true } else d) := by
  unfold DotConfigOf commonLayers
  rw [applyLayers_append, applyLayers_append, applyLayers_append]
  rw [← applyEnvCommon_eq_applyLayers, ← applyEnvCommon_eq_applyLayers]
  rfl

/-! ## Theorem for the claim about configuration precedence -/

/-- C4: `DotConfig` resolves method, root and dotPrefix by first-writer-wins
over the fixed layer order — bundle environment-matched settings, bundle
bare settings, global environment-matched settings, global bare settings
(`commonLayers`); a bundle-level method overrides a global one, and a bundle
environment-specific root overrides the bundle root exactly when its
environment layer is present; a dot-prefix flag never set by any layer
defaults to true. -/
theorem claim4_dotconfig_precedence (select : Selector) (replace : Replacer)
    (sch : Schema) (dotName : String) :
    (DotConfigOf select replace sch dotName).method =
      firstSetStr ((commonLayers select sch dotName).map (fun c => c.method)) ∧
    (DotConfigOf select replace sch dotName).root =
      firstSetStr ((commonLayers select sch dotName).map (fun c => c.root)) ∧
    (DotConfigOf select replace sch dotName).dotPrefix =
      firstSetBool ((commonLayers select sch dotName).map (fun c => c.dotPrefix)) := by
  obtain ⟨hm, hr, hs⟩ := rulesDeployConfig_unset select replace
    ((sch.dots.lookup dotName).getD {})
  rw [DotConfigOf_eq_layers]
  set d0 := rulesDeployConfig select replace ((sch.dots.lookup dotName).getD {})
    with hd0
  set L := commonLayers select sch dotName with hL
  simp only []
  have hmethod := applyLayers_method_of_empty L d0 hm
  have hroot := applyLayers_root_of_empty L d0 hr
  have hdp := applyLayers_dotPrefix_of_unset L d0 hs
  by_cases hset : (applyLayers L d0).dotPrefixSet = true
  · rw [if_pos hset] at hdp
    simp only [hset, Bool.not_true, Bool.false_eq_true, if_false]
    exact ⟨hmethod, hroot, hdp⟩
  · rw [Bool.not_eq_true] at hset
    rw [hset] at hdp
    simp only [hset, Bool.not_false, if_true]
    exact ⟨hmethod, hroot, by simpa using hdp.symm⟩

/-! ## Lemmas about the ownership ledger -/

theorem lookup_append_single_ne (L : List (String × List String))
    (k dot : String) (fs : List String) (hk : k ≠ dot) :
    (L ++ [(dot, fs)]).lookup k = L.lookup k := by
  induction L with
  | nil => simp [List.lookup, beq_false_of_ne hk]
  | cons kv rest ih =>
    obtain ⟨a, b⟩ := kv
    by_cases hak : k = a
    · subst hak; simp [List.lookup]
    · simp [List.lookup, beq_false_of_ne hak, ih]

theorem lookup_append_single_self (L : List (String × List String))
    (dot : String) (fs : List String) (h : L.lookup dot = none) :
    (L ++ [(dot, fs)]).lookup dot = some fs := by
  induction L with
  | nil => simp [List.lookup]
  | cons kv rest ih =>
    obtain ⟨a, b⟩ := kv
    by_cases hak : dot = a
    · subst hak; simp [List.lookup] at h
    · simp only [List.lookup, beq_false_of_ne hak] at h
      simp [List.lookup, beq_false_of_ne hak, ih h]

theorem lookup_map_replace_ne (L : List (String × List String))
    (k dot : String) (fs : List String) (hk : k ≠ dot) :
    (L.map (fun kv => if kv.1 = dot then (dot, fs) else kv)).lookup k =
      L.lookup k := by
  induction L with
  | nil => rfl
  | cons kv rest ih =>
    obtain ⟨a, b⟩ := kv
    by_cases ha : a = dot
    · subst ha
      simp only [List.map_cons, if_pos rfl]
      simp [List.lookup, beq_false_of_ne hk, ih]
    · simp only [List.map_cons, if_neg ha]
      by_cases hak : k = a
      · subst hak; simp [List.lookup]
      · simp [List.lookup, beq_false_of_ne hak, ih]

theorem lookup_map_replace_present (dot : String) (fs : List String) :
    ∀ L : List (String × List String), (L.lookup dot).isSome = true →
      (L.map (fun kv => if kv.1 = dot then (dot, fs) else kv)).lookup dot =
        some fs := by
  intro L
  induction L with
  | nil => intro h; simp [List.lookup] at h
  | cons kv rest ih =>
    intro h
    obtain ⟨a, b⟩ := kv
    by_cases ha : a = dot
    · subst ha
      have hhead : (if ((a : String), b).1 = a then (a, fs) else (a, b)) = (a, fs) :=
        if_pos rfl
      simp only [List.map_cons, hhead]
      simp [List.lookup]
    · have hda : dot ≠ a := Ne.symm ha
      simp only [List.lookup, beq_false_of_ne hda] at h
      simp only [List.map_cons, if_neg ha]
      simp [List.lookup, beq_false_of_ne hda]
      exact ih h

theorem lookup_insertLedger_self (L : List (String × List String))
    (dot : String) (fs : List String) :
    (insertLedger L dot fs).lookup dot = some fs := by
  unfold insertLedger
  by_cases h : (L.lookup dot).isSome = true
  · rw [if_pos h]
    exact lookup_map_replace_present dot fs L h
  · rw [if_neg h]
    refine lookup_append_single_self L dot fs ?_
    cases hl : L.lookup dot
    · rfl
    · rw [hl] at h; simp at h

theorem lookup_insertLedger_other (L : List (String × List String))
    (dot k : String) (fs : List String) (hk : k ≠ dot) :
    (insertLedger L dot fs).lookup k = L.lookup k := by
  unfold insertLedger
  by_cases h : (L.lookup dot).isSome = true
  · rw [if_pos h]
    exact lookup_map_replace_ne L k dot fs hk
  · rw [if_neg h]
    exact lookup_append_single_ne L k dot fs hk

theorem lookup_filter_ne (L : List (String × List String)) (dot k : String)
    (hk : k ≠ dot) :
    (L.filter (fun kv => kv.1 ≠ dot)).lookup k = L.lookup k := by
  induction L with
  | nil => rfl
  | cons kv rest ih =>
    obtain ⟨a, b⟩ := kv
    simp only [List.filter_cons]
    by_cases ha : a = dot
    · have hka : k ≠ a := fun h => hk (h.trans ha)
      have hpa : (decide ((a, b).1 ≠ dot)) = false := by simp [ha]
      rw [hpa]
      simp only [Bool.false_eq_true, if_false]
      rw [ih]
      simp [List.lookup, beq_false_of_ne hka]
    · have hpa : (decide ((a, b).1 ≠ dot)) = true := by simp [ha]
      rw [hpa]
      simp only [if_true]
      by_cases hak : k = a
      · subst hak; simp [List.lookup]
      · simp only [List.lookup, beq_false_of_ne hak]
        simpa [decide_not] using ih

theorem ensureOwnershipGo_append (force : Bool) (ownedSet : List String) :
    ∀ (files ownedFiles disk : List String) (o' d' : List String),
      ensureOwnershipGo force ownedSet files ownedFiles disk = .ok (o', d') →
      ∃ add, o' = ownedFiles ++ add := by
  intro files
  induction files with
  | nil =>
    intro ownedFiles disk o' d' h
    simp only [ensureOwnershipGo, Except.ok.injEq, Prod.mk.injEq] at h
    exact ⟨[], by rw [← h.1, List.append_nil]⟩
  | cons f rest ih =>
    intro ownedFiles disk o' d' h
    simp only [ensureOwnershipGo] at h
    cases hf : ensureOwnershipFile force disk f (ownedSet.contains f) with
    | error e => rw [hf] at h; cases h
    | ok disk₂ =>
      rw [hf] at h
      simp only [] at h
      by_cases ho : ownedSet.contains f = true
      · rw [ho] at h
        simp only [if_true] at h
        exact ih _ _ _ _ h
      · rw [Bool.not_eq_true] at ho
        rw [ho] at h
        simp only [Bool.false_eq_true, if_false] at h
        obtain ⟨add, hadd⟩ := ih _ _ _ _ h
        exact ⟨f :: add, by rw [hadd, List.append_assoc]; rfl⟩

/-- The full behavior of `EnsureOwnership` on a single destination path,
by unfolding the source functions. -/
theorem ensureOwnership_single (force : Bool) (st : FsState) (p dot : String) :
    EnsureOwnership force st [p] dot =
      (let owned0 := (st.ledger.lookup dot).getD []
       let newOwned := if owned0.contains p then owned0 else owned0 ++ [p]
       if p ∈ st.disk then
         if owned0.contains p || force then
           .ok ⟨st.disk.filter (fun q => q ≠ p), insertLedger st.ledger dot newOwned⟩
         else .error (p ++ " exists but is not owned by this directory")
       else .ok ⟨st.disk, insertLedger st.ledger dot newOwned⟩) := by
  unfold EnsureOwnership ensureOwnershipDot ensureOwnershipGo
    ensureOwnershipFile
  dsimp only
  set owned0 := (st.ledger.lookup dot).getD [] with h0
  by_cases hd : p ∈ st.disk
  · simp only [if_pos hd]
    by_cases ho : owned0.contains p = true
    · rw [ho]
      simp [ensureOwnershipGo]
    · rw [Bool.not_eq_true] at ho
      rw [ho]
      cases force <;> simp [ensureOwnershipGo]
  · simp only [if_neg hd]
    by_cases ho : owned0.contains p = true
    · rw [ho]
      simp [ensureOwnershipGo]
    · rw [Bool.not_eq_true] at ho
      rw [ho]
      simp [ensureOwnershipGo]

/-! ## Theorems for the ownership claims -/

/-- C8: on a single destination path, `EnsureOwnership`
(1) succeeds and records the path as newly owned by the bundle when it does
not exist on disk and is not yet recorded; (2) succeeds leaving the
bundle's ledger entry unchanged when the path is already recorded under the
bundle (a second deploy of the same bundle succeeds); (3) fails with the
"exists but unowned" error — persisting nothing, the returned state being
the ledger of the input — when the path exists on disk, is not recorded
under the bundle, and force is unset; (4) with force set it instead removes
the conflicting path from disk and records it.  On success the returned
state carries the updated ledger (the model's persisted state). -/
theorem claim8_ensure_ownership (force : Bool) (st : FsState) (p dot : String) :
    (p ∉ st.disk → p ∉ (st.ledger.lookup dot).getD [] →
      EnsureOwnership force st [p] dot =
        .ok ⟨st.disk, insertLedger st.ledger dot
          ((st.ledger.lookup dot).getD [] ++ [p])⟩ ∧
      ∀ st', EnsureOwnership force st [p] dot = .ok st' →
        st'.ledger.lookup dot = some ((st.ledger.lookup dot).getD [] ++ [p])) ∧
    (p ∈ (st.ledger.lookup dot).getD [] →
      ∃ st', EnsureOwnership force st [p] dot = .ok st' ∧
        st'.ledger.lookup dot = some ((st.ledger.lookup dot).getD [])) ∧
    (p ∈ st.disk → p ∉ (st.ledger.lookup dot).getD [] → force = false →
      EnsureOwnership force st [p] dot =
        .error (p ++ " exists but is not owned by this directory")) ∧
    (p ∈ st.disk → p ∉ (st.ledger.lookup dot).getD [] → force = true →
      ∃ st', EnsureOwnership force st [p] dot = .ok st' ∧
        p ∉ st'.disk ∧
        st'.ledger.lookup dot = some ((st.ledger.lookup dot).getD [] ++ [p])) := by
  refine ⟨?_, ?_, ?_, ?_⟩
  · intro hd ho
    have hc : ((st.ledger.lookup dot).getD []).contains p = false := by
      cases hcc : ((st.ledger.lookup dot).getD []).contains p
      · rfl
      · exact absurd (List.elem_iff.mp hcc) ho
    rw [ensureOwnership_single]
    simp only [hc, Bool.false_eq_true, if_false, if_neg hd]
    refine ⟨trivial, fun st' h => ?_⟩
    have h' := Except.ok.inj h
    rw [← h']
    exact lookup_insertLedger_self _ _ _
  · intro ho
    have hc : ((st.ledger.lookup dot).getD []).contains p = true :=
      List.elem_iff.mpr ho
    rw [ensureOwnership_single]
    simp only [hc, Bool.true_or, if_true]
    by_cases hd : p ∈ st.disk
    · simp only [if_pos hd]
      exact ⟨_, rfl, lookup_insertLedger_self _ _ _⟩
    · simp only [if_neg hd]
      exact ⟨_, rfl, lookup_insertLedger_self _ _ _⟩
  · intro hd ho hf
    have hc : ((st.ledger.lookup dot).getD []).contains p = false := by
      cases hcc : ((st.ledger.lookup dot).getD []).contains p
      · rfl
      · exact absurd (List.elem_iff.mp hcc) ho
    rw [ensureOwnership_single]
    simp only [hc, hf, Bool.or_false, if_pos hd, Bool.false_eq_true, if_false]
  · intro hd ho hf
    have hc : ((st.ledger.lookup dot).getD []).contains p = false := by
      cases hcc : ((st.ledger.lookup dot).getD []).contains p
      · rfl
      · exact absurd (List.elem_iff.mp hcc) ho
    rw [ensureOwnership_single]
    simp only [hc, hf, Bool.or_true, if_pos hd, if_true, Bool.false_eq_true,
      if_false]
    refine ⟨_, rfl, ?_, lookup_insertLedger_self _ _ _⟩
    simp

/-- C8 (witness): concrete runs of `claim8_ensure_ownership`, deploying to
a fresh path, re-deploying the same bundle, a conflicting unforced deploy,
and a conflicting forced deploy. -/
theorem claim8_ensure_ownership_witness :
    (EnsureOwnership false ⟨[], []⟩ ["/p"] "X" =
      .ok ⟨[], insertLedger [] "X" ["/p"]⟩) ∧
    (∃ st', EnsureOwnership false ⟨["/p"], [("X", ["/p"])]⟩ ["/p"] "X" = .ok st' ∧
      st'.ledger.lookup "X" = some ["/p"]) ∧
    (EnsureOwnership false ⟨["/p"], [("X", ["/p"])]⟩ ["/p"] "Y" =
      .error ("/p" ++ " exists but is not owned by this directory")) ∧
    (∃ st', EnsureOwnership true ⟨["/p"], [("X", ["/p"])]⟩ ["/p"] "Y" = .ok st' ∧
      "/p" ∉ st'.disk ∧ st'.ledger.lookup "Y" = some ["/p"]) := by
  refine ⟨?_, ?_, ?_, ?_⟩
  · exact ((claim8_ensure_ownership false ⟨[], []⟩ "/p" "X").1
      (by simp) (by simp [List.lookup])).1
  · exact (claim8_ensure_ownership false ⟨["/p"], [("X", ["/p"])]⟩ "/p" "X").2.1
      (by simp [List.lookup])
  · exact (claim8_ensure_ownership false ⟨["/p"], [("X", ["/p"])]⟩ "/p" "Y").2.2.1
      (by simp) (by simp [List.lookup]) rfl
  · exact (claim8_ensure_ownership true ⟨["/p"], [("X", ["/p"])]⟩ "/p" "Y").2.2.2
      (by simp) (by simp [List.lookup]) rfl

/-- C10: ledger frame conditions — a successful `EnsureOwnership` for
bundle `b` and `DisownDot b` both leave every other bundle's ledger entry
unchanged, and `EnsureOwnership` only ever appends to `b`'s own entry. -/
theorem claim10_ledger_frame (force : Bool) (st : FsState)
    (files : List String) (b b' : String) (hne : b' ≠ b) :
    (∀ st', EnsureOwnership force st files b = .ok st' →
      st'.ledger.lookup b' = st.ledger.lookup b') ∧
    ((DisownDot st b).ledger.lookup b' = st.ledger.lookup b') ∧
    (∀ st', EnsureOwnership force st files b = .ok st' →
      ∃ add, st'.ledger.lookup b =
        some ((st.ledger.lookup b).getD [] ++ add)) := by
  refine ⟨?_, ?_, ?_⟩
  · intro st' h
    unfold EnsureOwnership at h
    dsimp only at h
    cases hgo : ensureOwnershipDot force st.disk files
        ((st.ledger.lookup b).getD []) with
    | error e => rw [hgo] at h; cases h
    | ok od =>
      rw [hgo] at h
      obtain ⟨o', d'⟩ := od
      simp only [Except.ok.injEq] at h
      rw [← h]
      exact lookup_insertLedger_other _ _ _ _ hne
  · exact lookup_filter_ne _ _ _ hne
  · intro st' h
    unfold EnsureOwnership at h
    dsimp only at h
    cases hgo : ensureOwnershipDot force st.disk files
        ((st.ledger.lookup b).getD []) with
    | error e => rw [hgo] at h; cases h
    | ok od =>
      rw [hgo] at h
      simp only [Except.ok.injEq] at h
      obtain ⟨o', d'⟩ := od
      obtain ⟨add, hadd⟩ := ensureOwnershipGo_append force _ files _ _ _ _ hgo
      refine ⟨add, ?_⟩
      rw [← h]
      simp only []
      rw [lookup_insertLedger_self, hadd]

/-- C10 (witness): concrete instance of `claim10_ledger_frame` with bundles
`X` and `Y`. -/
theorem claim10_ledger_frame_witness :
    "Y" ≠ "X" ∧
    ((DisownDot ⟨[], [("X", ["/p"]), ("Y", ["/q"])]⟩ "X").ledger.lookup "Y" =
      some ["/q"]) ∧
    ((⟨[], [("X", ["/p", "/r"]), ("Y", ["/q"])]⟩ : FsState).ledger.lookup "Y" =
      some ["/q"]) := by
  have h := claim10_ledger_frame false ⟨[], [("X", ["/p"]), ("Y", ["/q"])]⟩
    ["/r"] "X" "Y" (by decide)
  refine ⟨by decide, h.2.1, ?_⟩
  exact h.1 ⟨[], [("X", ["/p", "/r"]), ("Y", ["/q"])]⟩ rfl

/-! ## Lemmas about expansion error propagation -/

theorem expandEntry_error_source (r : Resolver) (k v e : String)
    (h : expandEntry r k v = .error e) : ∃ p, r.expand p = .error e := by
  unfold expandEntry at h
  dsimp only at h
  cases h1 : r.expand (goJoin2 r.dotRoot k) with
  | error e1 =>
    rw [h1] at h
    simp only [Except.error.injEq] at h
    exact ⟨goJoin2 r.dotRoot k, by rw [h1, h]⟩
  | ok f =>
    rw [h1] at h
    cases h2 : r.expand (if v = "" then
        goJoin2 r.outRoot (if r.dotPrefix then expandDotPrefixes k else k)
      else v) with
    | error e2 =>
      rw [h2] at h
      simp only [Except.error.injEq] at h
      exact ⟨_, by rw [h2, h]⟩
    | ok o => rw [h2] at h; cases h

theorem expandResolvedPaths_error_source (r : Resolver) :
    ∀ (fm acc : List (String × String)) (e : String),
      expandResolvedPaths r fm acc = .error e → ∃ p, r.expand p = .error e := by
  intro fm
  induction fm with
  | nil => intro acc e h; cases h
  | cons kv rest ih =>
    intro acc e h
    obtain ⟨k, v⟩ := kv
    simp only [expandResolvedPaths] at h
    cases he : expandEntry r k v with
    | error e1 =>
      rw [he] at h
      simp only [Except.error.injEq] at h
      exact expandEntry_error_source r k v e (by rw [he, h])
    | ok fo =>
      rw [he] at h
      obtain ⟨f, o⟩ := fo
      exact ih _ e h

theorem expandResolvedPaths_fails (r : Resolver) :
    ∀ (fm acc : List (String × String)),
      (∃ kv ∈ fm, ∃ e, expandEntry r kv.1 kv.2 = .error e) →
      ∃ e, expandResolvedPaths r fm acc = .error e := by
  intro fm
  induction fm with
  | nil => intro acc h; obtain ⟨kv, hkv, _⟩ := h; cases hkv
  | cons kv rest ih =>
    intro acc h
    obtain ⟨k, v⟩ := kv
    cases he : expandEntry r k v with
    | error e1 =>
      exact ⟨e1, by simp only [expandResolvedPaths, he]⟩
    | ok fo =>
      obtain ⟨f, o⟩ := fo
      obtain ⟨kv', hkv', e', he'⟩ := h
      rcases List.mem_cons.mp hkv' with heq | hmem
      · subst heq
        rw [he] at he'
        cases he'
      · obtain ⟨e'', he''⟩ := ih (insertAL acc f o) ⟨kv', hmem, e', he'⟩
        exact ⟨e'', by simp only [expandResolvedPaths, he]; exact he''⟩

/-! ## Theorem for the expansion-failure claim -/

/-- C9: an expansion failure is fatal and propagated unchanged — whenever
`DeepResolve` or `ShallowResolve` returns an error, that error is exactly
what the external path expander reported for some path (and no map is
produced, the `Except.error` constructor carrying none); conversely, if any
entry of the resolved file map fails to expand (on its source or its
destination side), the resolver returns an error. -/
theorem claim9_expansion_failure (r : Resolver) (files : List String)
    (rules : List (String × String)) :
    (∀ e, DeepResolve r files rules = .error e → ∃ p, r.expand p = .error e) ∧
    (∀ e, ShallowResolve r files rules = .error e →
      ∃ p, r.expand p = .error e) ∧
    ((∃ kv ∈ deepFileMap rules r.dotPrefix files,
        ∃ e, expandEntry r kv.1 kv.2 = .error e) →
      ∃ e, DeepResolve r files rules = .error e) ∧
    ((∃ kv ∈ (if (shallowFileMap rules files).isEmpty then [("", "")]
          else shallowFileMap rules files),
        ∃ e, expandEntry { r with dotPrefix := false } kv.1 kv.2 = .error e) →
      ∃ e, ShallowResolve r files rules = .error e) := by
  refine ⟨?_, ?_, ?_, ?_⟩
  · intro e h
    exact expandResolvedPaths_error_source r _ _ e h
  · intro e h
    exact expandResolvedPaths_error_source { r with dotPrefix := false } _ _ e h
  · intro h
    exact expandResolvedPaths_fails r _ [] h
  · intro h
    exact expandResolvedPaths_fails { r with dotPrefix := false } _ [] h

/-- C9 (witness): with an expander failing on every path, `DeepResolve`
returns the expander's error for the first resolved source path. -/
theorem claim9_expansion_failure_witness :
    (DeepResolve ⟨"dots", "root", true, fun s => .error ("bad " ++ s)⟩
        ["a"] [] = .error "bad dots/a") ∧
    (∃ p, (Resolver.expand
        ⟨"dots", "root", true, fun s => .error ("bad " ++ s)⟩) p =
      .error "bad dots/a") := by
  refine ⟨rfl, ?_⟩
  exact (claim9_expansion_failure
    ⟨"dots", "root", true, fun s => .error ("bad " ++ s)⟩ ["a"] []).1
    "bad dots/a" rfl

/-! ## Lemmas about the file-map folds -/

theorem lookup_insertAL_self (m : List (String × String)) (k v : String) :
    (insertAL m k v).lookup k = some v := by
  unfold insertAL
  induction m with
  | nil => simp [List.lookup]
  | cons kv rest ih =>
    obtain ⟨a, b⟩ := kv
    simp only [List.filter_cons]
    by_cases ha : a = k
    · have hpa : (decide ((a, b).1 ≠ k)) = false := by simp [ha]
      rw [hpa]
      simp only [Bool.false_eq_true, if_false]
      exact ih
    · have hpa : (decide ((a, b).1 ≠ k)) = true := by simp [ha]
      rw [hpa]
      simp only [if_true, List.cons_append]
      have hka : k ≠ a := fun h => ha h.symm
      simp only [List.lookup, beq_false_of_ne hka]
      exact ih

theorem lookup_insertAL_other (m : List (String × String)) (k v k' : String)
    (h : k' ≠ k) : (insertAL m k v).lookup k' = m.lookup k' := by
  unfold insertAL
  induction m with
  | nil => simp [List.lookup, beq_false_of_ne h]
  | cons kv rest ih =>
    obtain ⟨a, b⟩ := kv
    simp only [List.filter_cons]
    by_cases ha : a = k
    · have hpa : (decide ((a, b).1 ≠ k)) = false := by simp [ha]
      rw [hpa]
      simp only [Bool.false_eq_true, if_false]
      have hk'a : k' ≠ a := fun hh => h (hh.trans ha)
      rw [ih]
      simp [List.lookup, beq_false_of_ne hk'a]
    · have hpa : (decide ((a, b).1 ≠ k)) = true := by simp [ha]
      rw [hpa]
      simp only [if_true, List.cons_append]
      by_cases hk'a : k' = a
      · subst hk'a; simp [List.lookup]
      · simp only [List.lookup, beq_false_of_ne hk'a]
        exact ih

theorem mem_insertAL (m : List (String × String)) (k v : String)
    (kv : String × String) (h : kv ∈ insertAL m k v) :
    kv ∈ m ∨ kv = (k, v) := by
  unfold insertAL at h
  rcases List.mem_append.mp h with hm | hs
  · exact Or.inl (List.mem_of_mem_filter hm)
  · simp only [List.mem_singleton] at hs
    exact Or.inr hs

theorem foldl_deepStep_marker (rules : List (String × String)) (dp : Bool)
    (f : String) (hf : (deepFileRule rules dp f).2 = false) :
    ∀ (files : List String) (fm : List (String × String)),
      (f ∈ files ∨ fm.lookup f = some "") →
      (files.foldl (deepStep rules dp false) fm).lookup f = some "" := by
  intro files
  induction files with
  | nil =>
    intro fm h
    rcases h with h | h
    · cases h
    · exact h
  | cons g rest ih =>
    intro fm h
    simp only [List.foldl_cons]
    by_cases hg : g = f
    · subst hg
      refine ih _ (Or.inr ?_)
      unfold deepStep
      dsimp only
      rw [hf]
      simp only [Bool.false_eq_true, if_false, Bool.not_false, if_true]
      exact lookup_insertAL_self _ _ _
    · have hpres : ∀ fm', (deepStep rules dp false fm' g).lookup f =
          fm'.lookup f := by
        intro fm'
        unfold deepStep
        dsimp only
        cases hcase : (deepFileRule rules dp g).2 <;>
          by_cases hv : (deepFileRule rules dp g).1 ≠ "" <;>
            simp [hcase, hv,
              lookup_insertAL_other _ _ _ _ (fun h' => hg h'.symm)]
      rcases h with h | h
      · rcases List.mem_cons.mp h with h' | h'
        · exact absurd h'.symm hg
        · exact ih _ (Or.inl h')
      · exact ih _ (Or.inr (by rw [hpres]; exact h))

theorem foldl_deepStep_dropped (rules : List (String × String)) (dp : Bool)
    (f : String) (hf : (deepFileRule rules dp f).2 = false) :
    ∀ (files : List String) (fm : List (String × String)),
      fm.lookup f = none →
      (files.foldl (deepStep rules dp true) fm).lookup f = none := by
  intro files
  induction files with
  | nil => intro fm h; exact h
  | cons g rest ih =>
    intro fm h
    simp only [List.foldl_cons]
    refine ih _ ?_
    unfold deepStep
    dsimp only
    by_cases hg : g = f
    · subst hg
      rw [hf]
      simp only [Bool.false_eq_true, if_false, Bool.not_true]
      exact h
    · cases hcase : (deepFileRule rules dp g).2 <;>
        by_cases hv : (deepFileRule rules dp g).1 ≠ "" <;>
          simp [hcase, hv,
            lookup_insertAL_other _ _ _ _ (fun h' => hg h'.symm), h]

theorem getD_ne_empty {o : Option String} (h : o.getD "" ≠ "") :
    o = some (o.getD "") := by
  cases o with
  | none => simp at h
  | some v => rfl

theorem foldl_shallowStep_sound (rules : List (String × String))
    (files : List String) :
    ∀ (files' : List String) (fm : List (String × String)),
      (∀ f ∈ files', f ∈ files) →
      (∀ kv ∈ fm, kv.2 ≠ "" ∧ rules.lookup kv.1 = some kv.2 ∧
        ∃ f ∈ files, kv.1 = f ∨ kv.1 = (splitSubdirRule f rules).1) →
      ∀ kv ∈ files'.foldl (shallowStep rules) fm,
        kv.2 ≠ "" ∧ rules.lookup kv.1 = some kv.2 ∧
        ∃ f ∈ files, kv.1 = f ∨ kv.1 = (splitSubdirRule f rules).1 := by
  intro files'
  induction files' with
  | nil => intro fm _ hfm kv hkv; exact hfm kv hkv
  | cons g rest ih =>
    intro fm hsub hfm kv hkv
    simp only [List.foldl_cons] at hkv
    refine ih _ (fun f hf => hsub f (List.mem_cons_of_mem g hf)) ?_ kv hkv
    intro kv' hkv'
    unfold shallowStep at hkv'
    have hg : g ∈ files := hsub g (List.mem_cons_self g rest)
    cases hl : rules.lookup g with
    | some v =>
      rw [hl] at hkv'
      dsimp only at hkv'
      by_cases hv : v ≠ ""
      · rw [if_pos hv] at hkv'
        rcases mem_insertAL _ _ _ _ hkv' with hm | he
        · exact hfm kv' hm
        · subst he
          exact ⟨hv, hl, g, hg, Or.inl rfl⟩
      · rw [if_neg hv] at hkv'
        exact hfm kv' hkv'
    | none =>
      rw [hl] at hkv'
      dsimp only at hkv'
      by_cases hc : (splitSubdirRule g rules).2.2 = true ∧
          (rules.lookup (splitSubdirRule g rules).1).getD "" ≠ ""
      · have : ((splitSubdirRule g rules).2.2 &&
            decide ((rules.lookup (splitSubdirRule g rules).1).getD "" ≠ "")) =
              true := by
          rw [hc.1]
          simp [hc.2]
        rw [this] at hkv'
        simp only [if_true] at hkv'
        rcases mem_insertAL _ _ _ _ hkv' with hm | he
        · exact hfm kv' hm
        · subst he
          exact ⟨hc.2, getD_ne_empty hc.2, g, hg, Or.inr rfl⟩
      · have hfalse : ((splitSubdirRule g rules).2.2 &&
            decide ((rules.lookup (splitSubdirRule g rules).1).getD "" ≠ "")) =
              false := by
          cases hA : (splitSubdirRule g rules).2.2 with
          | false => rfl
          | true =>
            cases hB : decide
                ((rules.lookup (splitSubdirRule g rules).1).getD "" ≠ "") with
            | false => rfl
            | true => exact absurd ⟨hA, of_decide_eq_true hB⟩ hc
        rw [hfalse] at hkv'
        simp only [Bool.false_eq_true, if_false] at hkv'
        exact hfm kv' hkv'

theorem splitSlash_ne_nil (cs : List Char) : splitSlash cs ≠ [] := by
  cases cs with
  | nil => simp [splitSlash]
  | cons c rest =>
    unfold splitSlash
    by_cases hc : c = '/'
    · simp [hc]
    · simp only [hc, if_false]
      cases splitSlash rest <;> simp

theorem splitSlash_append_slash (cs : List Char) :
    splitSlash (cs ++ ['/']) = splitSlash cs ++ [[]] := by
  induction cs with
  | nil => rfl
  | cons c rest ih =>
    by_cases hc : c = '/'
    · subst hc
      rw [show (((('/' : Char) :: rest) ++ ['/'])) = '/' :: (rest ++ ['/']) from rfl]
      rw [show splitSlash (('/' : Char) :: (rest ++ ['/'])) =
          [] :: splitSlash (rest ++ ['/']) from rfl]
      rw [show splitSlash (('/' : Char) :: rest) = [] :: splitSlash rest from rfl]
      rw [ih]
      rfl
    · have h1 : splitSlash (c :: (rest ++ ['/'])) =
          if c = '/' then [] :: splitSlash (rest ++ ['/'])
          else match splitSlash (rest ++ ['/']) with
            | s :: ss => (c :: s) :: ss
            | [] => [[c]] := rfl
      have h2 : splitSlash (c :: rest) =
          if c = '/' then [] :: splitSlash rest
          else match splitSlash rest with
            | s :: ss => (c :: s) :: ss
            | [] => [[c]] := rfl
      rw [if_neg hc] at h1
      rw [if_neg hc] at h2
      rw [show ((c :: rest) ++ ['/']) = c :: (rest ++ ['/']) from rfl, h1, h2, ih]
      cases hs : splitSlash rest with
      | nil => exact absurd hs (splitSlash_ne_nil rest)
      | cons s ss => simp

theorem cleanData_append_slash (cs : List Char) (h : cs ≠ []) :
    cleanData (cs ++ ['/']) = cleanData cs := by
  have hhead : (cs ++ ['/']).head? = cs.head? := by
    cases cs with
    | nil => cases h rfl
    | cons c rest => rfl
  unfold cleanData
  dsimp only
  rw [hhead, splitSlash_append_slash, List.foldl_append]
  rfl

theorem goJoin2_empty_right (a : String) (h : a ≠ "") :
    goJoin2 a "" = goClean a := by
  unfold goJoin2
  rw [if_neg h]
  unfold goClean
  have : (a.data ++ '/' :: String.data "") = a.data ++ ['/'] := rfl
  rw [this, cleanData_append_slash]
  intro hn
  exact h (by cases a; simp at hn; simp [hn])

/-! ## Theorems for the deep and shallow placement claims -/

/-- C6: with the deep/copy file map, a source file matching no rule is
given the empty-destination marker and expands to the configured root
joined with its (dot-expanded, when enabled) relative path; but when the
rule map binds the empty-string key, files matching no rule are dropped
from the map entirely.  The third conjunct is the spec's concrete example:
files `{a, b/c, dot-h}`, no rules, dotPrefix on. -/
theorem claim6_deep_fallback (rules : List (String × String)) (dp : Bool)
    (files : List String) (f dotRoot outRoot : String)
    (hf : (deepFileRule rules dp f).2 = false) :
    (rules.lookup "" = none → f ∈ files →
      (deepFileMap rules dp files).lookup f = some "" ∧
      expandEntry ⟨dotRoot, outRoot, dp, pureExpand⟩ f "" =
        .ok (goJoin2 dotRoot f,
          goJoin2 outRoot (if dp then expandDotPrefixes f else f))) ∧
    ((rules.lookup "").isSome = true →
      (deepFileMap rules dp files).lookup f = none) ∧
    (DeepResolve ⟨"dots", "root", true, pureExpand⟩ ["a", "b/c", "dot-h"] [] =
      .ok [("dots/a", "root/a"), ("dots/b/c", "root/b/c"),
        ("dots/dot-h", "root/.h")]) := by
  refine ⟨?_, ?_, rfl⟩
  · intro hig hmem
    constructor
    · unfold deepFileMap
      have : (rules.lookup "").isSome = false := by rw [hig]; rfl
      rw [this]
      exact foldl_deepStep_marker rules dp f hf files [] (Or.inl hmem)
    · rfl
  · intro hig
    unfold deepFileMap
    rw [hig]
    exact foldl_deepStep_dropped rules dp f hf files [] rfl

/-- C6 (witness): concrete instances of `claim6_deep_fallback` — an unruled
file falls back to the root with dot expansion, and is dropped when an
empty rule key exists. -/
theorem claim6_deep_fallback_witness :
    ((deepFileRule [] true "x/dot-y").2 = false ∧
      (deepFileMap [] true ["x/dot-y"]).lookup "x/dot-y" = some "" ∧
      expandEntry ⟨"d", "o", true, pureExpand⟩ "x/dot-y" "" =
        .ok ("d/x/dot-y", "o/x/.y")) ∧
    ((deepFileRule [("", "z")] true "x/dot-y").2 = false ∧
      (deepFileMap [("", "z")] true ["x/dot-y"]).lookup "x/dot-y" = none) := by
  constructor
  · have h := (claim6_deep_fallback [] true ["x/dot-y"] "x/dot-y" "d" "o"
      (by decide)).1 rfl (by decide)
    exact ⟨by decide, h.1, by rw [h.2]; rfl⟩
  · have h := (claim6_deep_fallback [("", "z")] true ["x/dot-y"] "x/dot-y"
      "d" "o" (by decide)).2.1 rfl
    exact ⟨by decide, h⟩

/-- C7: shallow placement ignores the dot-prefix flag entirely (the result
is the same for any flag value); every entry of the shallow file map is
keyed by a rule key — the file itself or the walked ancestor directory of
some file — bound to its non-empty rule value; and when that map is empty
the result is the single synthetic entry mapping the (cleaned) source root
to the (cleaned) output root. -/
theorem claim7_shallow (r : Resolver) (files : List String)
    (rules : List (String × String)) (b : Bool) (dr orr : String) :
    (ShallowResolve r files rules =
      ShallowResolve { r with dotPrefix := b } files rules) ∧
    (∀ kv ∈ shallowFileMap rules files, kv.2 ≠ "" ∧
      rules.lookup kv.1 = some kv.2 ∧
      ∃ f ∈ files, kv.1 = f ∨ kv.1 = (splitSubdirRule f rules).1) ∧
    (shallowFileMap rules files = [] → dr ≠ "" → orr ≠ "" →
      ShallowResolve ⟨dr, orr, b, pureExpand⟩ files rules =
        .ok [(goClean dr, goClean orr)]) := by
  refine ⟨rfl, ?_, ?_⟩
  · intro kv hkv
    exact foldl_shallowStep_sound rules files files []
      (fun f hf => hf) (fun kv' hkv' => absurd hkv' (List.not_mem_nil kv'))
      kv hkv
  · intro hempty hdr horr
    unfold ShallowResolve
    rw [hempty]
    simp only [List.isEmpty_nil, if_true]
    unfold expandResolvedPaths expandEntry
    dsimp only
    simp only [if_pos rfl]
    rw [show goJoin2 (Resolver.outRoot ⟨dr, orr, b, pureExpand⟩)
        (if (false : Bool) then expandDotPrefixes "" else "") =
      goJoin2 orr "" from rfl]
    rw [show goJoin2 (Resolver.dotRoot ⟨dr, orr, b, pureExpand⟩) "" =
      goJoin2 dr "" from rfl]
    rw [goJoin2_empty_right orr horr, goJoin2_empty_right dr hdr]
    rfl

/-- C7 (witness): concrete instances of `claim7_shallow` — flag
independence, soundness of a produced entry, and the synthetic root
entry. -/
theorem claim7_shallow_witness :
    (ShallowResolve ⟨"d", "o", true, pureExpand⟩ ["q/w"] [("q", "/z")] =
      ShallowResolve ⟨"d", "o", false, pureExpand⟩ ["q/w"] [("q", "/z")]) ∧
    (("q", "/z") ∈ shallowFileMap [("q", "/z")] ["q/w"] ∧
      ("/z" : String) ≠ "" ∧
      List.lookup "q" [("q", "/z")] = some "/z") ∧
    (shallowFileMap [("a", "/z")] ["q/w"] = [] ∧
      ShallowResolve ⟨"d", "o", true, pureExpand⟩ ["q/w"] [("a", "/z")] =
        .ok [("d", "o")]) := by
  have h := claim7_shallow ⟨"d", "o", true, pureExpand⟩ ["q/w"] [("q", "/z")]
    false "d" "o"
  refine ⟨h.1, ?_, ?_⟩
  · have hm : ("q", "/z") ∈ shallowFileMap [("q", "/z")] ["q/w"] := by decide
    have hs := h.2.1 ("q", "/z") hm
    exact ⟨hm, hs.1, hs.2.1⟩
  · have h2 := claim7_shallow ⟨"d", "o", true, pureExpand⟩ ["q/w"] [("a", "/z")]
      true "d" "o"
    have he : shallowFileMap [("a", "/z")] ["q/w"] = [] := by decide
    have := h2.2.2 he (by decide) (by decide)
    exact ⟨he, by rw [this]; rfl⟩

/-! ## Lemmas about canonical relative paths -/

theorem isSeg_spec (s : List Char) (h : isSeg s = true) :
    s ≠ [] ∧ (∀ c ∈ s, c ≠ '/') ∧ s ≠ ['.'] ∧ s ≠ ['.', '.'] := by
  simp only [isSeg, Bool.and_eq_true, Bool.not_eq_true', List.all_eq_true,
    decide_eq_true_eq] at h
  obtain ⟨⟨⟨h1, h2⟩, h3⟩, h4⟩ := h
  refine ⟨?_, h2, h3, h4⟩
  intro hs
  rw [hs] at h1
  simp at h1

theorem joinSegs_cons (s : List Char) (ss : List (List Char)) (h : ss ≠ []) :
    joinSegs (s :: ss) = s ++ '/' :: joinSegs ss := by
  cases ss with
  | nil => cases h rfl
  | cons t ts => rfl

theorem joinSegs_append_single (ss : List (List Char)) (t : List Char)
    (h : ss ≠ []) : joinSegs (ss ++ [t]) = joinSegs ss ++ '/' :: t := by
  induction ss with
  | nil => cases h rfl
  | cons s rest ih =>
    cases hr : rest with
    | nil => subst hr; rfl
    | cons a b =>
      rw [← hr]
      have hrne : rest ≠ [] := by rw [hr]; simp
      rw [show ((s :: rest) ++ [t]) = s :: (rest ++ [t]) from rfl]
      rw [joinSegs_cons s (rest ++ [t]) (by simp [hr])]
      rw [joinSegs_cons s rest hrne]
      rw [ih hrne]
      simp

theorem joinSegs_ne_nil (ss : List (List Char)) (h : ss ≠ [])
    (hne : ∀ s ∈ ss, s ≠ []) : joinSegs ss ≠ [] := by
  cases ss with
  | nil => cases h rfl
  | cons s rest =>
    cases rest with
    | nil => exact hne s (by simp)
    | cons a b =>
      rw [joinSegs_cons s (a :: b) (by simp)]
      intro hcc
      simp [List.append_eq_nil] at hcc

theorem head?_joinSegs (s : List Char) (ss : List (List Char)) (hs : s ≠ []) :
    (joinSegs (s :: ss)).head? = s.head? := by
  cases ss with
  | nil => rfl
  | cons a b =>
    rw [joinSegs_cons s (a :: b) (by simp)]
    cases s with
    | nil => cases hs rfl
    | cons c cs => rfl

theorem length_le_joinSegs (ss : List (List Char)) :
    ss.length ≤ (joinSegs ss).length + 1 := by
  induction ss with
  | nil => simp
  | cons s rest ih =>
    cases rest with
    | nil => simp [joinSegs]
    | cons a b =>
      rw [joinSegs_cons s (a :: b) (by simp)]
      simp only [List.length_cons, List.length_append] at ih ⊢
      omega

theorem joinSegs_ne_dot (ss : List (List Char)) (h : ss ≠ [])
    (hs : ∀ s ∈ ss, isSeg s = true) : joinSegs ss ≠ ['.'] := by
  cases ss with
  | nil => cases h rfl
  | cons s rest =>
    cases rest with
    | nil => exact (isSeg_spec s (hs s (by simp))).2.2.1
    | cons a b =>
      rw [joinSegs_cons s (a :: b) (by simp)]
      obtain ⟨hne, _, _, _⟩ := isSeg_spec s (hs s (by simp))
      intro hcc
      have hlen := congrArg List.length hcc
      simp only [List.length_append, List.length_cons] at hlen
      cases s with
      | nil => cases hne rfl
      | cons c cs =>
        simp only [List.length_cons, List.length_nil] at hlen
        omega

theorem splitSlash_noSlash (s : List Char) (h : ∀ c ∈ s, c ≠ '/') :
    splitSlash s = [s] := by
  induction s with
  | nil => rfl
  | cons c cs ih =>
    have hc : c ≠ '/' := h c (by simp)
    unfold splitSlash
    rw [if_neg hc, ih (fun c' hc' => h c' (by simp [hc']))]

theorem splitSlash_append (s r : List Char) (h : ∀ c ∈ s, c ≠ '/') :
    splitSlash (s ++ '/' :: r) = s :: splitSlash r := by
  induction s with
  | nil =>
    show splitSlash ('/' :: r) = [] :: splitSlash r
    rfl
  | cons c cs ih =>
    have hc : c ≠ '/' := h c (by simp)
    have h1 : splitSlash (c :: (cs ++ '/' :: r)) =
        if c = '/' then [] :: splitSlash (cs ++ '/' :: r)
        else match splitSlash (cs ++ '/' :: r) with
          | s' :: ss => (c :: s') :: ss
          | [] => [[c]] := rfl
    rw [if_neg hc] at h1
    show splitSlash (c :: (cs ++ '/' :: r)) = (c :: cs) :: splitSlash r
    rw [h1, ih (fun c' hc' => h c' (by simp [hc']))]

theorem splitSlash_joinSegs (ss : List (List Char)) (h : ss ≠ [])
    (hs : ∀ s ∈ ss, ∀ c ∈ s, c ≠ '/') : splitSlash (joinSegs ss) = ss := by
  induction ss with
  | nil => cases h rfl
  | cons s rest ih =>
    cases rest with
    | nil => exact splitSlash_noSlash s (hs s (by simp))
    | cons a b =>
      rw [joinSegs_cons s (a :: b) (by simp)]
      rw [splitSlash_append s _ (hs s (by simp))]
      rw [ih (by simp) (fun s' h' c hc => hs s' (by simp [h']) c hc)]

theorem splitSlash_joinSegs_append (ss : List (List Char)) (r : List Char)
    (h : ss ≠ []) (hs : ∀ s ∈ ss, ∀ c ∈ s, c ≠ '/') :
    splitSlash (joinSegs ss ++ '/' :: r) = ss ++ splitSlash r := by
  induction ss with
  | nil => cases h rfl
  | cons s rest ih =>
    cases rest with
    | nil => exact splitSlash_append s r (hs s (by simp))
    | cons a b =>
      rw [joinSegs_cons s (a :: b) (by simp)]
      rw [show ((s ++ '/' :: joinSegs (a :: b)) ++ '/' :: r) =
        s ++ '/' :: (joinSegs (a :: b) ++ '/' :: r) from by simp]
      rw [splitSlash_append s _ (hs s (by simp))]
      rw [ih (by simp) (fun s' h' c hc => hs s' (by simp [h']) c hc)]
      rfl

theorem foldl_cleanStep_canonical (rooted : Bool) (ss : List (List Char))
    (hs : ∀ s ∈ ss, isSeg s = true) :
    ∀ acc, ss.foldl (cleanStep rooted) acc = ss.reverse ++ acc := by
  induction ss with
  | nil => intro acc; simp
  | cons s rest ih =>
    intro acc
    obtain ⟨h1, _, h3, h4⟩ := isSeg_spec s (hs s (by simp))
    simp only [List.foldl_cons]
    have hstep : cleanStep rooted acc s = s :: acc := by
      unfold cleanStep
      rw [if_neg (by
        rintro (h | h)
        · exact h1 h
        · exact h3 h)]
      rw [if_neg h4]
    rw [hstep, ih (fun s' h' => hs s' (by simp [h'])) (s :: acc)]
    simp

theorem head?_append_left (l m : List Char) (h : l ≠ []) :
    (l ++ m).head? = l.head? := by
  cases l with
  | nil => cases h rfl
  | cons c cs => rfl

theorem cleanData_joinSegs (ss : List (List Char)) (h : ss ≠ [])
    (hs : ∀ s ∈ ss, isSeg s = true) : cleanData (joinSegs ss) = joinSegs ss := by
  have hnos : ∀ s ∈ ss, ∀ c ∈ s, c ≠ '/' := fun s h' => (isSeg_spec s (hs s h')).2.1
  have hne : ∀ s ∈ ss, s ≠ [] := fun s h' => (isSeg_spec s (hs s h')).1
  have hjne : joinSegs ss ≠ [] := joinSegs_ne_nil ss h hne
  have hhead : ¬((joinSegs ss).head? = some '/') := by
    cases ss with
    | nil => cases h rfl
    | cons s rest =>
      rw [head?_joinSegs s rest (hne s (by simp))]
      cases s with
      | nil => exact absurd rfl (hne [] (by simp))
      | cons c cs =>
        intro hcc
        simp only [List.head?_cons, Option.some.injEq] at hcc
        exact (isSeg_spec (c :: cs) (hs _ (by simp))).2.1 c (by simp) hcc
  unfold cleanData
  dsimp only
  rw [decide_eq_false hhead]
  rw [splitSlash_joinSegs ss h hnos]
  rw [foldl_cleanStep_canonical false ss hs []]
  simp only [List.append_nil, List.reverse_reverse]
  rw [if_neg hhead, if_neg hjne]

theorem cleanData_joinSegs_append (ss ts : List (List Char)) (hss : ss ≠ [])
    (hts : ts ≠ []) (hs : ∀ s ∈ ss, isSeg s = true)
    (ht : ∀ s ∈ ts, isSeg s = true) :
    cleanData (joinSegs ss ++ '/' :: joinSegs ts) = joinSegs (ss ++ ts) := by
  have hnos : ∀ s ∈ ss, ∀ c ∈ s, c ≠ '/' := fun s h' => (isSeg_spec s (hs s h')).2.1
  have hnot : ∀ s ∈ ts, ∀ c ∈ s, c ≠ '/' := fun s h' => (isSeg_spec s (ht s h')).2.1
  have hne : ∀ s ∈ ss, s ≠ [] := fun s h' => (isSeg_spec s (hs s h')).1
  have hjne : joinSegs ss ≠ [] := joinSegs_ne_nil ss hss hne
  have hcanon : ∀ s ∈ ss ++ ts, isSeg s = true := by
    intro s h'
    rcases List.mem_append.mp h' with h' | h'
    · exact hs s h'
    · exact ht s h'
  have hhead : ¬((joinSegs ss ++ '/' :: joinSegs ts).head? = some '/') := by
    rw [head?_append_left _ _ hjne]
    cases ss with
    | nil => cases hss rfl
    | cons s rest =>
      rw [head?_joinSegs s rest (hne s (by simp))]
      cases s with
      | nil => exact absurd rfl (hne [] (by simp))
      | cons c cs =>
        intro hcc
        simp only [List.head?_cons, Option.some.injEq] at hcc
        exact (isSeg_spec (c :: cs) (hs _ (by simp))).2.1 c (by simp) hcc
  unfold cleanData
  dsimp only
  rw [decide_eq_false hhead]
  rw [splitSlash_joinSegs_append ss _ hss hnos]
  rw [splitSlash_joinSegs ts hts hnot]
  rw [foldl_cleanStep_canonical false (ss ++ ts) hcanon []]
  simp only [List.append_nil, List.reverse_reverse]
  rw [if_neg hhead]
  rw [if_neg (joinSegs_ne_nil (ss ++ ts) (by simp [hss]) (by
    intro s h'
    exact (isSeg_spec s (hcanon s h')).1))]

theorem dropWhile_append_all (p : Char → Bool) (l m : List Char)
    (h : ∀ c ∈ l, p c = true) :
    (l ++ m).dropWhile p = m.dropWhile p := by
  induction l with
  | nil => rfl
  | cons c cs ih =>
    rw [List.cons_append, List.dropWhile_cons_of_pos (h c (by simp))]
    exact ih (fun c' hc' => h c' (by simp [hc']))

theorem takeWhile_append_all (p : Char → Bool) (l m : List Char)
    (h : ∀ c ∈ l, p c = true) :
    (l ++ m).takeWhile p = l ++ m.takeWhile p := by
  induction l with
  | nil => rfl
  | cons c cs ih =>
    rw [List.cons_append, List.takeWhile_cons_of_pos (h c (by simp))]
    rw [ih (fun c' hc' => h c' (by simp [hc']))]
    rfl

theorem uptoLastSlash_noSlash (t : List Char) (h : ∀ c ∈ t, c ≠ '/') :
    uptoLastSlash t = [] := by
  unfold uptoLastSlash
  have : t.reverse.dropWhile (fun c => c ≠ '/') = [] := by
    have := dropWhile_append_all (fun c => decide (c ≠ '/')) t.reverse []
      (fun c hc => by simp [h c (List.mem_reverse.mp hc)])
    simpa using this
  rw [this]
  rfl

theorem uptoLastSlash_append (x t : List Char) (h : ∀ c ∈ t, c ≠ '/') :
    uptoLastSlash (x ++ '/' :: t) = x ++ ['/'] := by
  unfold uptoLastSlash
  rw [show (x ++ '/' :: t) = (x ++ ['/']) ++ t from by simp]
  rw [List.reverse_append]
  rw [dropWhile_append_all _ t.reverse _
    (fun c hc => by simp [h c (List.mem_reverse.mp hc)])]
  rw [show (x ++ ['/']).reverse = '/' :: x.reverse from by simp]
  rw [List.dropWhile_cons_of_neg (by simp)]
  simp

theorem afterLastSlash_noSlash (t : List Char) (h : ∀ c ∈ t, c ≠ '/') :
    afterLastSlash t = t := by
  unfold afterLastSlash
  have := takeWhile_append_all (fun c => decide (c ≠ '/')) t.reverse []
    (fun c hc => by simp [h c (List.mem_reverse.mp hc)])
  simp only [List.append_nil] at this
  rw [this]
  simp

theorem afterLastSlash_append (x t : List Char) (h : ∀ c ∈ t, c ≠ '/') :
    afterLastSlash (x ++ '/' :: t) = t := by
  unfold afterLastSlash
  rw [show (x ++ '/' :: t) = (x ++ ['/']) ++ t from by simp]
  rw [List.reverse_append]
  rw [takeWhile_append_all _ t.reverse _
    (fun c hc => by simp [h c (List.mem_reverse.mp hc)])]
  rw [show (x ++ ['/']).reverse = '/' :: x.reverse from by simp]
  rw [List.takeWhile_cons_of_neg (by simp)]
  simp

theorem dirData_append (x t : List Char) (hnos : ∀ c ∈ t, c ≠ '/') :
    dirData (x ++ '/' :: t) = cleanData (x ++ ['/']) := by
  unfold dirData
  rw [uptoLastSlash_append x t hnos]

theorem dirData_noSlash (t : List Char) (hnos : ∀ c ∈ t, c ≠ '/') :
    dirData t = ['.'] := by
  unfold dirData
  rw [uptoLastSlash_noSlash t hnos]
  rfl

theorem baseData_append (x t : List Char) (ht : t ≠ [])
    (hnos : ∀ c ∈ t, c ≠ '/') : baseData (x ++ '/' :: t) = t := by
  obtain ⟨d, ds, hd⟩ : ∃ d ds, t.reverse = d :: ds := by
    cases htr : t.reverse with
    | nil =>
      have : t = [] := by simpa using congrArg List.reverse htr
      exact absurd this ht
    | cons d ds => exact ⟨d, ds, rfl⟩
  have hdmem : d ∈ t := List.mem_reverse.mp (by rw [hd]; simp)
  have hrev : (x ++ '/' :: t).reverse = t.reverse ++ '/' :: x.reverse := by simp
  have hstrip : (x ++ '/' :: t).reverse.dropWhile (fun c => c = '/') =
      (x ++ '/' :: t).reverse := by
    rw [hrev, hd]
    rw [show ((d :: ds) ++ '/' :: x.reverse) = d :: (ds ++ '/' :: x.reverse)
      from rfl]
    rw [List.dropWhile_cons_of_neg (by simp [hnos d hdmem])]
  unfold baseData
  rw [if_neg (by simp)]
  dsimp only
  rw [hstrip, List.reverse_reverse]
  rw [if_neg (by simp)]
  exact afterLastSlash_append x t hnos

theorem baseData_noSlash (t : List Char) (ht : t ≠ [])
    (hnos : ∀ c ∈ t, c ≠ '/') : baseData t = t := by
  obtain ⟨d, ds, hd⟩ : ∃ d ds, t.reverse = d :: ds := by
    cases htr : t.reverse with
    | nil =>
      have : t = [] := by simpa using congrArg List.reverse htr
      exact absurd this ht
    | cons d ds => exact ⟨d, ds, rfl⟩
  have hdmem : d ∈ t := List.mem_reverse.mp (by rw [hd]; simp)
  have hstrip : t.reverse.dropWhile (fun c => c = '/') = t.reverse := by
    rw [hd]
    rw [List.dropWhile_cons_of_neg (by simp [hnos d hdmem])]
  unfold baseData
  rw [if_neg ht]
  dsimp only
  rw [hstrip, List.reverse_reverse]
  rw [if_neg ht]
  exact afterLastSlash_noSlash t hnos

theorem pathOfSegs_ne_empty (ss : List (List Char)) (h : ss ≠ [])
    (hne : ∀ s ∈ ss, s ≠ []) : pathOfSegs ss ≠ "" := by
  intro hcc
  exact joinSegs_ne_nil ss h hne (congrArg String.data hcc)

theorem goDir_pathOfSegs_append (ss : List (List Char)) (t : List Char)
    (hss : ss ≠ []) (hs : ∀ s ∈ ss, isSeg s = true) (ht : isSeg t = true) :
    goDir (pathOfSegs (ss ++ [t])) = pathOfSegs ss := by
  unfold goDir pathOfSegs
  refine congrArg String.mk ?_
  show dirData (joinSegs (ss ++ [t])) = joinSegs ss
  rw [joinSegs_append_single ss t hss]
  rw [dirData_append _ t (isSeg_spec t ht).2.1]
  rw [cleanData_append_slash _ (joinSegs_ne_nil ss hss
    (fun s h' => (isSeg_spec s (hs s h')).1))]
  exact cleanData_joinSegs ss hss hs

theorem goDir_pathOfSegs_single (t : List Char) (ht : isSeg t = true) :
    goDir (pathOfSegs [t]) = "." := by
  unfold goDir pathOfSegs
  refine congrArg String.mk ?_
  show dirData (joinSegs [t]) = ['.']
  exact dirData_noSlash t (isSeg_spec t ht).2.1

theorem goBase_pathOfSegs_append (ss : List (List Char)) (t : List Char)
    (hss : ss ≠ []) (ht : isSeg t = true) :
    goBase (pathOfSegs (ss ++ [t])) = pathOfSegs [t] := by
  unfold goBase pathOfSegs
  refine congrArg String.mk ?_
  show baseData (joinSegs (ss ++ [t])) = joinSegs [t]
  rw [joinSegs_append_single ss t hss]
  exact baseData_append _ t (isSeg_spec t ht).1 (isSeg_spec t ht).2.1

theorem goBase_pathOfSegs_single (t : List Char) (ht : isSeg t = true) :
    goBase (pathOfSegs [t]) = pathOfSegs [t] := by
  unfold goBase pathOfSegs
  refine congrArg String.mk ?_
  show baseData (joinSegs [t]) = joinSegs [t]
  exact baseData_noSlash t (isSeg_spec t ht).1 (isSeg_spec t ht).2.1

theorem goJoin2_pathOfSegs (ss ts : List (List Char)) (hss : ss ≠ [])
    (hts : ts ≠ []) (hs : ∀ s ∈ ss, isSeg s = true)
    (ht : ∀ s ∈ ts, isSeg s = true) :
    goJoin2 (pathOfSegs ss) (pathOfSegs ts) = pathOfSegs (ss ++ ts) := by
  unfold goJoin2
  rw [if_neg (pathOfSegs_ne_empty ss hss
    (fun s h' => (isSeg_spec s (hs s h')).1))]
  unfold goClean pathOfSegs
  refine congrArg String.mk ?_
  show cleanData (joinSegs ss ++ '/' :: joinSegs ts) = joinSegs (ss ++ ts)
  exact cleanData_joinSegs_append ss ts hss hts hs ht

/-- The upward walk of `splitSubdirRule` on a canonical relative path:
starting at the ancestor with `k + m` segments, with no rule bound to any
ancestor deeper than `k` segments and a rule bound at `k` segments, the walk
stops exactly at the `k`-segment ancestor, accumulating the remainder. -/
theorem splitSubdirGo_walk (rules : List (String × String))
    (ss : List (List Char)) (hs : ∀ s ∈ ss, isSeg s = true)
    (k : Nat) (hk1 : 1 ≤ k) (v : String)
    (hkv : rules.lookup (pathOfSegs (ss.take k)) = some v) :
    ∀ (m fuel : Nat), k + m ≤ ss.length - 1 → m ≤ fuel →
      (∀ j, k < j → j ≤ k + m → rules.lookup (pathOfSegs (ss.take j)) = none) →
      splitSubdirGo rules fuel (pathOfSegs (ss.take (k + m)))
        (pathOfSegs (ss.drop (k + m)))
        (rules.lookup (pathOfSegs (ss.take (k + m)))).isSome =
      (pathOfSegs (ss.take k), pathOfSegs (ss.drop k), true) := by
  intro m
  induction m with
  | zero =>
    intro fuel hle hfuel hnone
    have hflag : (rules.lookup (pathOfSegs (ss.take (k + 0)))).isSome = true := by
      simp only [Nat.add_zero]
      rw [hkv]
      rfl
    unfold splitSubdirGo
    rw [if_pos hflag]
    simp only [Nat.add_zero]
  | succ m ih =>
    intro fuel hle hfuel hnone
    rw [show k + (m + 1) = k + m + 1 from rfl] at hle ⊢
    have hkm_lt : k + m < ss.length := by omega
    have hlt : k + m + 1 < ss.length := by omega
    have htake : ss.take (k + m + 1) = ss.take (k + m) ++ [ss[k + m]] := by
      rw [List.take_succ, List.getElem?_eq_getElem hkm_lt]
      rfl
    have hdrop : ss.drop (k + m) = ss[k + m] :: ss.drop (k + m + 1) :=
      List.drop_eq_getElem_cons hkm_lt
    have htk_ne : ss.take (k + m) ≠ [] := by
      apply List.ne_nil_of_length_pos
      rw [List.length_take]
      omega
    have hcanon_take : ∀ s ∈ ss.take (k + m), isSeg s = true :=
      fun s h' => hs s (List.take_subset _ _ h')
    have hseg : isSeg ss[k + m] = true := hs _ (List.getElem_mem hkm_lt)
    have hcanon_drop : ∀ s ∈ ss.drop (k + m + 1), isSeg s = true :=
      fun s h' => hs s (List.drop_subset _ _ h')
    have hdrop_ne : ss.drop (k + m + 1) ≠ [] := by
      apply List.ne_nil_of_length_pos
      rw [List.length_drop]
      omega
    have hflag : (rules.lookup (pathOfSegs (ss.take (k + m + 1)))).isSome =
        false := by
      rw [hnone (k + m + 1) (by omega) (by omega)]
      rfl
    have hdir : goDir (pathOfSegs (ss.take (k + m + 1))) =
        pathOfSegs (ss.take (k + m)) := by
      rw [htake]
      exact goDir_pathOfSegs_append _ _ htk_ne hcanon_take hseg
    have hbase : goBase (pathOfSegs (ss.take (k + m + 1))) =
        pathOfSegs [ss[k + m]] := by
      rw [htake]
      exact goBase_pathOfSegs_append _ _ htk_ne hseg
    have hguard : ¬(goDir (pathOfSegs (ss.take (k + m + 1))) = ".") := by
      rw [hdir]
      intro hcc
      exact joinSegs_ne_dot (ss.take (k + m)) htk_ne hcanon_take
        (congrArg String.data hcc)
    have hjoin : goJoin2 (pathOfSegs [ss[k + m]])
        (pathOfSegs (ss.drop (k + m + 1))) = pathOfSegs (ss.drop (k + m)) := by
      rw [goJoin2_pathOfSegs [ss[k + m]] (ss.drop (k + m + 1)) (by simp)
        hdrop_ne (by simpa using hseg) hcanon_drop]
      rw [show ([ss[k + m]] ++ ss.drop (k + m + 1)) =
        ss[k + m] :: ss.drop (k + m + 1) from rfl]
      rw [← hdrop]
    unfold splitSubdirGo
    rw [if_neg (by rw [hflag]; simp)]
    rw [if_neg hguard]
    cases fuel with
    | zero => exact absurd hfuel (by omega)
    | succ f =>
      dsimp only
      rw [hbase, hjoin, hdir]
      exact ih f (by omega) (by omega) (fun j hj1 hj2 => hnone j hj1 (by omega))

/-! ## Theorem for the subdirectory-rule claim -/

/-- C5: on a canonical relative path, per-file rule resolution checks the
full path as an exact rule key first (third conjunct); otherwise it walks
from the immediate parent upward, so the deepest ruled ancestor — the
`k`-segment prefix, when no deeper prefix is ruled — always wins (first
conjunct); a hit whose value is empty drops the file, and a hit with
non-empty value `v` joins `v` with the remainder below the matched
directory, dot-prefix expansion applying to the remainder only and never to
the matched prefix (second conjunct); the last conjunct is the spec's
example `{d ↦ /out}`, `d/e/dot-f`, dotPrefix on. -/
theorem claim5_subdir_resolution (rules : List (String × String)) (dp : Bool)
    (ss : List (List Char)) (hs : ∀ s ∈ ss, isSeg s = true)
    (hn : 2 ≤ ss.length) (k : Nat) (hk1 : 1 ≤ k) (hkn : k ≤ ss.length - 1)
    (v : String)
    (hexact : rules.lookup (pathOfSegs ss) = none)
    (hkv : rules.lookup (pathOfSegs (ss.take k)) = some v)
    (hnone : ∀ j, k < j → j ≤ ss.length - 1 →
      rules.lookup (pathOfSegs (ss.take j)) = none) :
    splitSubdirRule (pathOfSegs ss) rules =
      (pathOfSegs (ss.take k), pathOfSegs (ss.drop k), true) ∧
    deepFileRule rules dp (pathOfSegs ss) =
      ((if v = "" then ""
        else goJoin2 v (if dp then expandDotPrefixes (pathOfSegs (ss.drop k))
          else pathOfSegs (ss.drop k))), true) ∧
    (∀ file w, rules.lookup file = some w →
      deepFileRule rules dp file = (w, true)) ∧
    deepFileRule [("d", "/out")] true "d/e/dot-f" = ("/out/e/.f", true) := by
  have hlast_lt : ss.length - 1 < ss.length := by omega
  have hsplit : ss = ss.take (ss.length - 1) ++ [ss[ss.length - 1]] := by
    conv_lhs => rw [← List.take_length ss,
      show ss.length = (ss.length - 1) + 1 from by omega]
    rw [List.take_succ, List.getElem?_eq_getElem hlast_lt]
    rfl
  have htk_ne : ss.take (ss.length - 1) ≠ [] := by
    apply List.ne_nil_of_length_pos
    rw [List.length_take]
    omega
  have hcanon_take : ∀ s ∈ ss.take (ss.length - 1), isSeg s = true :=
    fun s h' => hs s (List.take_subset _ _ h')
  have hseg : isSeg ss[ss.length - 1] = true := hs _ (List.getElem_mem hlast_lt)
  have hdroplast : ss.drop (ss.length - 1) = [ss[ss.length - 1]] := by
    rw [List.drop_eq_getElem_cons hlast_lt]
    rw [show ((ss.length - 1) + 1) = ss.length from by omega, List.drop_length]
  have hdir0 : goDir (pathOfSegs ss) = pathOfSegs (ss.take (ss.length - 1)) := by
    conv_lhs => rw [hsplit]
    exact goDir_pathOfSegs_append _ _ htk_ne hcanon_take hseg
  have hbase0 : goBase (pathOfSegs ss) = pathOfSegs (ss.drop (ss.length - 1)) := by
    conv_lhs => rw [hsplit]
    rw [goBase_pathOfSegs_append _ _ htk_ne hseg, hdroplast]
  have hkm : k + (ss.length - 1 - k) = ss.length - 1 := by omega
  have hfuel : ss.length - 1 - k ≤ (pathOfSegs ss).length := by
    have := length_le_joinSegs ss
    have hlen : (pathOfSegs ss).length = (joinSegs ss).length := rfl
    omega
  have hwalk := splitSubdirGo_walk rules ss hs k hk1 v hkv
    (ss.length - 1 - k) ((pathOfSegs ss).length) (by omega) hfuel
    (fun j hj1 hj2 => hnone j hj1 (by omega))
  rw [hkm] at hwalk
  have hpart1 : splitSubdirRule (pathOfSegs ss) rules =
      (pathOfSegs (ss.take k), pathOfSegs (ss.drop k), true) := by
    unfold splitSubdirRule
    rw [hdir0, hbase0]
    exact hwalk
  refine ⟨hpart1, ?_, ?_, ?_⟩
  · unfold deepFileRule
    rw [hexact]
    unfold resolveSubdirRule
    rw [hpart1]
    dsimp only
    rw [hkv]
    by_cases hv : v = ""
    · rw [if_pos hv, if_pos (show (some v).getD "" = "" from by rw [hv]; rfl)]
      rfl
    · rw [if_neg (show ¬((some v).getD "" = "") from hv), if_neg hv]
      rfl
  · intro file w h
    unfold deepFileRule
    rw [h]
  · rfl

/-- C5 (witness): concrete instance of `claim5_subdir_resolution` on the
file `a/b/c/f` with the single rule `a/b ↦ /x` (deepest ruled ancestor
`a/b`, remainder `c/f`), together with the spec's `d/e/dot-f` example. -/
theorem claim5_subdir_resolution_witness :
    (pathOfSegs [['a'], ['b'], ['c'], ['f']] = "a/b/c/f" ∧
      pathOfSegs [['a'], ['b']] = "a/b" ∧ pathOfSegs [['c'], ['f']] = "c/f") ∧
    splitSubdirRule "a/b/c/f" [("a/b", "/x")] = ("a/b", "c/f", true) ∧
    deepFileRule [("a/b", "/x")] true "a/b/c/f" = ("/x/c/f", true) ∧
    deepFileRule [("d", "/out")] true "d/e/dot-f" = ("/out/e/.f", true) := by
  have h := claim5_subdir_resolution [("a/b", "/x")] true
    [['a'], ['b'], ['c'], ['f']] (by decide) (by decide) 2 (by decide)
    (by decide) "/x" (by decide) (by decide)
    (fun j hj1 hj2 => by
      have hlen : ([['a'], ['b'], ['c'], ['f']] : List (List Char)).length = 4 :=
        rfl
      rw [hlen] at hj2
      have hj : j = 3 := by omega
      subst hj
      decide)
  refine ⟨⟨by decide, by decide, by decide⟩, ?_, ?_, h.2.2.2⟩
  · have h1 := h.1
    rw [show pathOfSegs [['a'], ['b'], ['c'], ['f']] = "a/b/c/f" from by decide,
      show pathOfSegs (List.take 2 [['a'], ['b'], ['c'], ['f']]) = "a/b" from
        by decide,
      show pathOfSegs (List.drop 2 [['a'], ['b'], ['c'], ['f']]) = "c/f" from
        by decide] at h1
    exact h1
  · have h2 := h.2.1
    rw [show pathOfSegs [['a'], ['b'], ['c'], ['f']] = "a/b/c/f" from
      by decide] at h2
    rw [h2]
    decide

end Estragon
